import Mathlib

/-!
Verification development for the fire metaball particle system
(`FireMetaBallSystem` / `FireMetaBallParticle`).

The TypeScript source is shallowly embedded:
* JavaScript numbers are modelled as exact rationals `ℚ` (the algorithms
  under study use only field operations, comparisons and `Math.floor`).
* `Math.random()` draws and the trigonometric functions applied to them
  (`cos`/`sin` of freshly drawn random angles) are modelled by an oracle
  supplying arbitrary rational values; every theorem quantifies over the
  oracle, so the results hold for every random stream.
* JavaScript `Map`s (insertion ordered) are modelled as association lists;
  particle references are resolved through the globally unique particle id.
* The DFS `while` loop of `clusterParticles` is modelled with explicit fuel
  `n + 1` (`n` = number of particles); the fuel is provably sufficient
  (`dfsLoop_stack_empty`), so the branch that runs out of fuel is dead code.
-/

/-- Particle state, mirroring class `FireMetaBallParticle`
(fields `id, x, y, vx, vy, life, maxLife, active, merged`). -/
structure FireMetaBallParticle where
  id : ℕ
  x : ℚ
  y : ℚ
  vx : ℚ
  vy : ℚ
  life : ℚ
  maxLife : ℚ
  active : Bool
  merged : Bool
deriving DecidableEq, Repr

namespace FireMetaBallParticle

/-- Mirror of `FireMetaBallParticle.update(dt)`: Euler integration, constant
upward acceleration, random turbulence (oracle values `r1`, `r2` stand for the
two `Math.random()` draws), uniform damping, life countdown and deactivation.
Inactive particles are returned unchanged (the early `return`). -/
def updateP (p : FireMetaBallParticle) (dt r1 r2 : ℚ) : FireMetaBallParticle :=
  if !p.active then p
  else
    let x := p.x + p.vx * dt
    let y := p.y + p.vy * dt
    let vy1 := p.vy - 20 * dt
    let vx1 := p.vx + (r1 - 1/2) * 10 * dt
    let vy2 := vy1 + (r2 - 1/2) * 5 * dt
    let vx2 := vx1 * (995/1000)
    let vy3 := vy2 * (995/1000)
    let life := p.life - dt
    { p with x := x, y := y, vx := vx2, vy := vy3, life := life,
             active := decide (0 < life) }

/-- Mirror of `FireMetaBallParticle.getAlpha()`:
`0` when inactive, otherwise `a = life * 2` clamped to at most `1`. -/
def getAlpha (p : FireMetaBallParticle) : ℚ :=
  if !p.active then 0
  else
    let a := p.life * 2
    if a < 1 then a else 1

end FireMetaBallParticle

/-- Mirror of `FireMetaBallSystem.scaleAtY(y)` with emitter height `H`:
`0.12 + clamp(y/H, 0, 1) * 2`. -/
def scaleAtY (H y : ℚ) : ℚ :=
  let t := max 0 (min 1 (y / H))
  12/100 + t * 2

/-- The pairwise admission test of `clusterParticles`: the source skips a
candidate when `d2 > pairThr * pairThr`, hence admits it when
`d2 ≤ (threshold * max (scaleAtY cur.y) (scaleAtY nb.y))²`. -/
def pairTestB (H thr : ℚ) (cur nb : FireMetaBallParticle) : Bool :=
  let dx := cur.x - nb.x
  let dy := cur.y - nb.y
  let d2 := dx * dx + dy * dy
  let pairScale := max (scaleAtY H cur.y) (scaleAtY H nb.y)
  let pairThr := thr * pairScale
  decide (d2 ≤ pairThr * pairThr)

/-- The `COHESION` constant of `clusterParticles`. -/
def COHESION : ℚ := 1

/-- The cohesion admission test of `clusterParticles` against the running
centroid `(sumX/count, sumY/count)`: the source skips a candidate when its
squared distance to the centroid exceeds
`(threshold * COHESION * scaleAtY cy * (1 + cy/H * 0.8))²`. -/
def cohesionTestB (H thr sumX sumY : ℚ) (count : ℕ) (nb : FireMetaBallParticle) : Bool :=
  let cx := sumX / (count : ℚ)
  let cy := sumY / (count : ℚ)
  let cxScale := scaleAtY H cy
  let bottomBias := 1 + cy / H * (8/10)
  let cohThr := thr * COHESION * cxScale * bottomBias
  let dcx := nb.x - cx
  let dcy := nb.y - cy
  decide (dcx * dcx + dcy * dcy ≤ cohThr * cohThr)

/-- Grid buckets of `clusterParticles`: an insertion-ordered association list
from cell keys to the particles bucketed in that cell (JS `Map` with keys
`"cx,cy"`). -/
def Buckets : Type := List ((ℤ × ℤ) × List FireMetaBallParticle)

/-- Cell key `(⌊x/cell⌋, ⌊y/cell⌋)` of `keyOf` in `clusterParticles`. -/
def cellKey (cell x y : ℚ) : ℤ × ℤ := (⌊x / cell⌋, ⌊y / cell⌋)

/-- JS `Map.get` on the buckets (returning `[]` for a missing key, which is
how the `undefined` case is consumed by `candidates`). -/
def bucketsGet (b : Buckets) (k : ℤ × ℤ) : List FireMetaBallParticle :=
  match b with
  | [] => []
  | (k1, l) :: rest => if k1 = k then l else bucketsGet rest k

/-- One step of the bucket-filling loop: append `p` to its cell's list,
creating the entry if absent (JS `Map` keeps insertion order). -/
def bucketsAdd (b : Buckets) (k : ℤ × ℤ) (p : FireMetaBallParticle) : Buckets :=
  match b with
  | [] => [(k, [p])]
  | (k1, l) :: rest =>
    if k1 = k then (k1, l ++ [p]) :: rest else (k1, l) :: bucketsAdd rest k p

/-- The bucket-filling loop of `clusterParticles`. -/
def buildBuckets (cell : ℚ) (particles : List FireMetaBallParticle) : Buckets :=
  particles.foldl (fun b p => bucketsAdd b (cellKey cell p.x p.y) p) []

/-- Mirror of the local `candidates(px, py)` helper: concatenation of the
bucket lists of the 3×3 cell neighbourhood, outer loop over `oy`, inner over
`ox`, offsets `-1, 0, 1` in source order. -/
def candidates (cell : ℚ) (b : Buckets) (px py : ℚ) : List FireMetaBallParticle :=
  let cx := ⌊px / cell⌋
  let cy := ⌊py / cell⌋
  (([-1, 0, 1] : List ℤ).map fun oy =>
    (([-1, 0, 1] : List ℤ).map fun ox => bucketsGet b (cx + ox, cy + oy)).flatten).flatten

/-- The mutable state of one flood fill in `clusterParticles`: the (global)
visited id set, the component built so far, the running coordinate sums and
member count feeding the centroid, and the DFS stack (top at the head). -/
structure DfsState where
  visited : List ℕ
  comp : List FireMetaBallParticle
  sumX : ℚ
  sumY : ℚ
  count : ℕ
  stack : List FireMetaBallParticle
deriving Repr

/-- The body of the `for (const nb of candidates(...))` loop: skip visited
candidates and the current particle itself, apply the pairwise test and then
the cohesion test against the running centroid, and on success mark the
candidate visited, append it to the component, update the sums and push it. -/
def admitStep (H thr : ℚ) (cur : FireMetaBallParticle) (s : DfsState)
    (nb : FireMetaBallParticle) : DfsState :=
  if nb.id ∈ s.visited ∨ nb.id = cur.id then s
  else if !pairTestB H thr cur nb then s
  else if !cohesionTestB H thr s.sumX s.sumY s.count nb then s
  else
    { visited := nb.id :: s.visited
      comp := s.comp ++ [nb]
      sumX := s.sumX + nb.x
      sumY := s.sumY + nb.y
      count := s.count + 1
      stack := nb :: s.stack }

/-- The `while (stack.length > 0)` loop of `clusterParticles`, with explicit
fuel. Each iteration pops the stack top and folds `admitStep` over its grid
candidates. `dfsLoop_stack_empty` below shows the fuel used by
`clusterParticles` never runs out. -/
def dfsLoop (H thr : ℚ) (b : Buckets) : ℕ → DfsState → DfsState
  | 0, s => s
  | fuel + 1, s =>
    match s.stack with
    | [] => s
    | cur :: rest =>
      dfsLoop H thr b fuel
        ((candidates thr b cur.x cur.y).foldl (admitStep H thr cur) { s with stack := rest })

/-- The body of the outer `for (const seed of particles)` loop: skip visited
seeds, otherwise flood fill from the seed and append the resulting component.
The accumulator carries the global visited set and the clusters so far. -/
def seedStep (H thr : ℚ) (b : Buckets) (fuel : ℕ)
    (acc : List ℕ × List (List FireMetaBallParticle)) (seed : FireMetaBallParticle) :
    List ℕ × List (List FireMetaBallParticle) :=
  if seed.id ∈ acc.1 then acc
  else
    let s0 : DfsState :=
      { visited := seed.id :: acc.1, comp := [seed], sumX := seed.x, sumY := seed.y,
        count := 1, stack := [seed] }
    let s1 := dfsLoop H thr b fuel s0
    (s1.visited, acc.2 ++ [s1.comp])

/-- Mirror of `FireMetaBallSystem.clusterParticles(particles, threshold)` with
emitter height `H`: grid-bucketed flood fill into connected components. -/
def clusterParticles (H : ℚ) (particles : List FireMetaBallParticle) (threshold : ℚ) :
    List (List FireMetaBallParticle) :=
  let b := buildBuckets threshold particles
  (particles.foldl (seedStep H threshold b (particles.length + 1)) ([], [])).2

/-- The fixed multiplier list of `clusterToFitBudget`:
`[1, 1.12, 1.4, 1.8, 2, 2.2]`. -/
def multipliers : List ℚ := [1, 112/100, 7/5, 9/5, 2, 11/5]

/-- The `for (const m of multipliers)` loop of `clusterToFitBudget`: remember
the last computed clustering and stop at the first one whose size fits the
budget. -/
def fitLoop (H base : ℚ) (maxSprites : ℕ) (actives : List FireMetaBallParticle) :
    List ℚ → List (List FireMetaBallParticle) → List (List FireMetaBallParticle)
  | [], chosen => chosen
  | m :: rest, _ =>
    let clusters := clusterParticles H actives (base * m)
    if clusters.length ≤ maxSprites then clusters else fitLoop H base maxSprites actives rest clusters

/-- Mirror of `FireMetaBallSystem.clusterToFitBudget()` over an explicit
particle list (`H` = emitter height, `base` = `baseMergeDistance`,
`maxSprites` = budget): filter the active particles, return `[]` when none,
otherwise escalate through the multiplier list. -/
def clusterToFitBudget (H : ℚ) (maxSprites : ℕ) (base : ℚ)
    (particles : List FireMetaBallParticle) : List (List FireMetaBallParticle) :=
  let actives := particles.filter (·.active)
  if actives.length = 0 then []
  else fitLoop H base maxSprites actives multipliers []

/-- Placeholder particle for the unreachable `comp[0]!` of an empty component
(`pickAnchor` is only ever called on non-empty components). -/
def dummyParticle : FireMetaBallParticle :=
  { id := 0, x := 0, y := 0, vx := 0, vy := 0, life := 0, maxLife := 0,
    active := false, merged := false }

/-- The running best of `pickAnchor`: `none` models the initial
`bestScore = -Infinity` (any finite score beats it). -/
def anchorBetter (score : ℚ) (bestScore : Option ℚ) : Bool :=
  match bestScore with
  | none => true
  | some b => decide (b < score)

/-- Mirror of `FireMetaBallSystem.pickAnchor(comp)`: the member maximising
`yNorm * 0.65 + alpha * 0.35` (first maximiser wins, since the source updates
only on a strictly larger score). -/
def pickAnchor (H : ℚ) (comp : List FireMetaBallParticle) : FireMetaBallParticle :=
  match comp with
  | [] => dummyParticle
  | first :: _ =>
    (comp.foldl
      (fun best p =>
        let yNorm := max 0 (min 1 (p.y / H))
        let score := yNorm * (65/100) + p.getAlpha * (35/100)
        if anchorBetter score best.2 then (p, some score) else best)
      (first, none)).1

/-- Mirror of `FireMetaBallSystem.keyFor(comp)`: the member ids sorted
ascending (the source joins them into a string; the sorted id list is the
same canonical identity). -/
def keyFor (comp : List FireMetaBallParticle) : List ℕ :=
  (comp.map (·.id)).insertionSort (· ≤ ·)

/-- Render-sprite state. The handle id `hid` models the object identity of
the `PIXI.Sprite` (each `new Sprite(...)` allocates a fresh handle);
`attached` models membership in the container's children (`addChild` /
`removeChild`). Purely cosmetic fields that no claim observes (texture
choice, rotation, anchor point) are omitted. -/
structure SpriteS where
  hid : ℕ
  x : ℚ
  y : ℚ
  alpha : ℚ
  visible : Bool
  attached : Bool
  scaleX : ℚ
  scaleY : ℚ
  blend : ℕ
deriving DecidableEq, Repr

/-- Fresh sprite as produced by `new Sprite(texture)` followed by
`anchor.set(0.5)` and positioning: visible, attached after `addChild`,
default alpha 1 and scale 1. -/
def mkSprite (hid : ℕ) (x y : ℚ) : SpriteS :=
  { hid := hid, x := x, y := y, alpha := 1, visible := true, attached := true,
    scaleX := 1, scaleY := 1, blend := 0 }

/-- Mirror of interface `ParticleGroup`. In the source `particles` aliases
the live particle objects; the model stores the member snapshot taken at
reconciliation time, which is observationally equivalent for everything read
from it (`active`, position, alpha are only read before the next
reconciliation overwrites the group). -/
structure ParticleGroup where
  key : List ℕ
  particles : List FireMetaBallParticle
  sprite : SpriteS
  anchor : FireMetaBallParticle
deriving DecidableEq, Repr

/-- Mirror of interface `FireMetaBallOptions` (only the fields the system
reads; the texture-count options are consumed by asset generation only).
`Option` mirrors the `??` defaulting in the constructor. -/
structure FireMetaBallOptions where
  max : ℕ
  width : ℚ
  height : ℚ
  mergeDistance : Option ℚ
  spawnInterval : Option ℚ

/-- State of a `FireMetaBallSystem` (the `Container` subclass): configuration
fields, spawn timer state, the particle array, the `singleSprites` map
(keyed by the particle id, standing for the JS `Map` keyed by the particle
reference — ids are globally unique) and the `groups` map (keyed by the
sorted-id cluster identity). `nextId` models the static id counter of
`FireMetaBallParticle`; `nextHid` models sprite-object allocation. -/
structure FireMetaBallSystem where
  maxSprites : ℕ
  emitterWidth : ℚ
  emitterHeight : ℚ
  baseMergeDistance : ℚ
  spawnTimer : ℚ
  spawnInterval : ℚ
  particles : List FireMetaBallParticle
  singleSprites : List (ℕ × SpriteS)
  groups : List (List ℕ × ParticleGroup)
  nextId : ℕ
  nextHid : ℕ
deriving Repr

/-- Mirror of the `FireMetaBallSystem` constructor. -/
def initSystem (opts : FireMetaBallOptions) : FireMetaBallSystem :=
  { maxSprites := opts.max, emitterWidth := opts.width, emitterHeight := opts.height,
    baseMergeDistance := opts.mergeDistance.getD 5,
    spawnInterval := opts.spawnInterval.getD (15/100), spawnTimer := 0,
    particles := [], singleSprites := [], groups := [], nextId := 1, nextHid := 0 }

/-- One frame's random draws. `j1 i` and `j2 i` are the two `Math.random()`
draws consumed by particle `i`'s turbulence. The spawn fields stand for the
values produced from the spawn-time draws (`cosA`/`sinA` are the cosine and
sine of the random spawn angle, `dirCos`/`dirSin` of the random launch angle,
the rest are raw uniform draws). Theorems quantify over the whole oracle, so
no distributional assumption is made. -/
structure Oracle where
  j1 : ℕ → ℚ
  j2 : ℕ → ℚ
  cosA : ℚ
  sinA : ℚ
  radius : ℚ
  baseBias : ℚ
  dirCos : ℚ
  dirSin : ℚ
  speedR : ℚ
  lifeR : ℚ

/-- The `for (const p of this.particles) p.update(dt)` loop, feeding each
particle its own pair of random draws. -/
def updateEach (dt : ℚ) (j1 j2 : ℕ → ℚ) : ℕ → List FireMetaBallParticle → List FireMetaBallParticle
  | _, [] => []
  | i, p :: rest => p.updateP dt (j1 i) (j2 i) :: updateEach dt j1 j2 (i + 1) rest

/-- Mirror of `cullDeadParticles()`: remove every inactive particle from the
array and delete (and detach) its single sprite. -/
def cullDeadParticles (st : FireMetaBallSystem) : FireMetaBallSystem :=
  let deadIds := (st.particles.filter (fun p => !p.active)).map (·.id)
  { st with particles := st.particles.filter (·.active),
            singleSprites := st.singleSprites.filter (fun e => !(decide (e.1 ∈ deadIds))) }

/-- Mirror of `getVisualSpriteCount()`: active particles (each assumed to
carry a single sprite) plus the number of tracked groups. -/
def getVisualSpriteCount (st : FireMetaBallSystem) : ℕ :=
  (st.particles.filter (·.active)).length + st.groups.length

/-- First particle with the given id (JS object references are resolved
through the globally unique id). -/
def findParticle (ps : List FireMetaBallParticle) (pid : ℕ) : Option FireMetaBallParticle :=
  ps.find? (fun p => decide (p.id = pid))

/-- JS `Map.get` on the groups map. -/
def lookupKey (groups : List (List ℕ × ParticleGroup)) (k : List ℕ) : Option ParticleGroup :=
  (groups.find? (fun e => decide (e.1 = k))).map (·.2)

/-- JS `Map.set` on the groups map: overwrite in place, else append. -/
def setKey (k : List ℕ) (g : ParticleGroup) :
    List (List ℕ × ParticleGroup) → List (List ℕ × ParticleGroup)
  | [] => [(k, g)]
  | (k1, g1) :: rest => if k1 = k then (k, g) :: rest else (k1, g1) :: setKey k g rest

/-- JS `Map.has` on the groups map. -/
def containsKey (groups : List (List ℕ × ParticleGroup)) (k : List ℕ) : Bool :=
  (lookupKey groups k).isSome

/-- The `p.merged = true` loop over a cluster, expressed on the owning
particle list (the source mutates the aliased objects in place). -/
def markMerged (ids : List ℕ) (parts : List FireMetaBallParticle) : List FireMetaBallParticle :=
  parts.map fun p => if p.id ∈ ids then { p with merged := true } else p

/-- The `s.visible = false` loop over a cluster's single sprites. -/
def hideSingles (ids : List ℕ) (singles : List (ℕ × SpriteS)) : List (ℕ × SpriteS) :=
  singles.map fun e => if e.1 ∈ ids then (e.1, { e.2 with visible := false }) else e

/-- Accumulator of the per-cluster loop in `reconcileVisuals`: the `next`
map under construction, the particle list and single-sprite map being
flag-mutated through the aliased references, the handles created so far and
the allocation counter. -/
structure RecAcc where
  next : List (List ℕ × ParticleGroup)
  parts : List FireMetaBallParticle
  singles : List (ℕ × SpriteS)
  createdHids : List ℕ
  nextHid : ℕ

/-- The body of the `for (const comp of clusters)` loop of
`reconcileVisuals`: skip singleton clusters; reuse the tracked group with the
same identity key (updating members and anchor) or create a fresh sprite;
mark all members merged and hide their single sprites; record the group under
its key in `next`. -/
def recClusterStep (H : ℚ) (oldGroups : List (List ℕ × ParticleGroup))
    (acc : RecAcc) (comp : List FireMetaBallParticle) : RecAcc :=
  if comp.length ≤ 1 then acc
  else
    let key := keyFor comp
    let anchor := pickAnchor H comp
    let ids := comp.map (·.id)
    match lookupKey oldGroups key with
    | some grp =>
      { acc with next := setKey key ({ grp with particles := comp, anchor := anchor }) acc.next,
                 parts := markMerged ids acc.parts,
                 singles := hideSingles ids acc.singles }
    | none =>
      let fresh : ParticleGroup :=
        { key := key, particles := comp, sprite := mkSprite acc.nextHid anchor.x anchor.y,
          anchor := anchor }
      { acc with next := setKey key fresh acc.next,
                 parts := markMerged ids acc.parts,
                 singles := hideSingles ids acc.singles,
                 createdHids := acc.createdHids ++ [acc.nextHid],
                 nextHid := acc.nextHid + 1 }

/-- Mirror of `reconcileVisuals(clusters)`, additionally reporting the
created and destroyed sprite handles (observables for the identity-stability
claim): clear all merged flags, process each cluster, detach the sprite of
every previously tracked group whose key is absent from `next`, install
`next` as the groups map, and set each active particle's single-sprite
visibility to the negation of its merged flag. -/
def reconcileVisualsX (st : FireMetaBallSystem) (clusters : List (List FireMetaBallParticle)) :
    FireMetaBallSystem × List ℕ × List ℕ :=
  let parts0 := st.particles.map fun p => { p with merged := false }
  let acc0 : RecAcc := { next := [], parts := parts0, singles := st.singleSprites,
                         createdHids := [], nextHid := st.nextHid }
  let acc := clusters.foldl (recClusterStep st.emitterHeight st.groups) acc0
  let destroyed := (st.groups.filter
      (fun e => !(containsKey acc.next e.1) && e.2.sprite.attached)).map (·.2.sprite.hid)
  let singles1 := acc.singles.map fun e =>
    match findParticle acc.parts e.1 with
    | some p => if p.active then (e.1, { e.2 with visible := !p.merged }) else e
    | none => e
  ({ st with particles := acc.parts, singleSprites := singles1, groups := acc.next,
             nextHid := acc.nextHid },
   acc.createdHids, destroyed)

/-- Mirror of `reconcileVisuals(clusters)` (state part only). -/
def reconcileVisuals (st : FireMetaBallSystem) (clusters : List (List FireMetaBallParticle)) :
    FireMetaBallSystem :=
  (reconcileVisualsX st clusters).1

/-- Mirror of `spawnOne()`: sample the spawn position (the oracle supplies
the random draws and the trigonometric values computed from them), construct
the particle with the static-counter id, create its single sprite and
register both. -/
def spawnOne (st : FireMetaBallSystem) (o : Oracle) : FireMetaBallSystem :=
  let x := st.emitterWidth / 2 + o.cosA * o.radius
  let verticalOffset := o.baseBias * o.baseBias * 15
  let y := st.emitterHeight - 10 - verticalOffset + o.sinA * o.radius * (3/10)
  let speed := 50 + o.speedR * 50
  let maxLife := 2 + o.lifeR * 2
  let p : FireMetaBallParticle :=
    { id := st.nextId, x := x, y := y, vx := o.dirCos * speed, vy := o.dirSin * speed,
      life := maxLife, maxLife := maxLife, active := true, merged := false }
  { st with particles := st.particles ++ [p],
            singleSprites := st.singleSprites ++ [(p.id, mkSprite st.nextHid p.x p.y)],
            nextId := st.nextId + 1, nextHid := st.nextHid + 1 }

/-- Mirror of `maybeSpawn()`: wait until the timer reaches the interval, then
spawn one particle only when the visual sprite count is below the budget
(tightening the interval near the budget: the comparison `visual >
maxSprites - 3` is JS number arithmetic, hence over ℤ), and reset the
timer. -/
def maybeSpawn (st : FireMetaBallSystem) (o : Oracle) : FireMetaBallSystem :=
  if st.spawnTimer < st.spawnInterval then st
  else
    let visual := getVisualSpriteCount st
    let st1 :=
      if visual < st.maxSprites then
        spawnOne { st with
          spawnInterval := if (st.maxSprites : ℤ) - 3 < (visual : ℤ) then 1/4 else 15/100 } o
      else st
    { st1 with spawnTimer := 0 }

/-- Mirror of `updateSingleSprites()`: for every live unmerged active
particle, push position, fade alpha, additive blend and the anisotropic
lifetime/height scale to its sprite. -/
def updateSingleSprites (st : FireMetaBallSystem) : FireMetaBallSystem :=
  let singles1 := st.singleSprites.map fun e =>
    match findParticle st.particles e.1 with
    | some p =>
      if !p.active || p.merged then e
      else
        let progress := (1 - p.life / p.maxLife) * (1 - p.life / p.maxLife)
        let baseScale := max (1/10) (4 - progress * (38/10))
        let heightProgress := p.y / st.emitterHeight
        let horizontalScale := 3/10 + heightProgress * (7/10)
        (e.1, { e.2 with x := p.x, y := p.y, alpha := p.getAlpha, blend := 1,
                         scaleX := baseScale * horizontalScale, scaleY := baseScale })
    | none => e
  { st with singleSprites := singles1 }

/-- Mirror of `updateGroupSprites()`, additionally reporting whether the
dead-anchor reselection branch or the no-surviving-members destruction branch
was ever taken (both are dead code in the running system, see the
corresponding claim): re-derive a dead anchor, average the surviving members'
alphas, detach the sprite when no member survives, otherwise push transform,
alpha, blend and scale. -/
def groupSpriteStep (H : ℚ) (acc : List (List ℕ × ParticleGroup) × Bool × Bool)
    (e : List ℕ × ParticleGroup) : List (List ℕ × ParticleGroup) × Bool × Bool :=
  let grp := e.2
  let deadAnchor := !grp.anchor.active
  let anchor := if !grp.anchor.active then pickAnchor H grp.particles else grp.anchor
  let survivors : List FireMetaBallParticle := grp.particles.filter (·.active)
  let sa : ℚ := (survivors.map (·.getAlpha)).sum
  let n : ℕ := survivors.length
  if n = 0 then
    let grp1 : ParticleGroup :=
      { grp with anchor := anchor, sprite := { grp.sprite with attached := false } }
    (acc.1 ++ [(e.1, grp1)], acc.2.1 || deadAnchor, true)
  else
    let progress := max 0 ((H - anchor.y) / H)
    let baseScale := max (2/10) (42/10 - progress * 4)
    let heightProgress := anchor.y / H
    let horizontalScale := 3/10 + heightProgress * (7/10)
    let sprite1 : SpriteS :=
      { grp.sprite with x := anchor.x, y := anchor.y, alpha := sa / (n : ℚ), blend := 1,
                        scaleX := baseScale * horizontalScale, scaleY := baseScale }
    let grp1 : ParticleGroup := { grp with anchor := anchor, sprite := sprite1 }
    (acc.1 ++ [(e.1, grp1)], acc.2.1 || deadAnchor, acc.2.2)

/-- Mirror of `updateGroupSprites()` as the fold of `groupSpriteStep` over
the tracked groups. -/
def updateGroupSpritesX (H : ℚ) (groups : List (List ℕ × ParticleGroup)) :
    List (List ℕ × ParticleGroup) × Bool × Bool :=
  groups.foldl (groupSpriteStep H)
    (([], false, false) : List (List ℕ × ParticleGroup) × Bool × Bool)

/-- Mirror of `FireMetaBallSystem.update(dt)` with branch observations:
advance the spawn timer, integrate all particles, cull the dead, cluster to
fit the budget, reconcile visuals, maybe spawn, and push single- and
group-sprite updates. The returned booleans report whether
`updateGroupSprites` took its dead-anchor branch or its destruction
branch. -/
def updateX (st : FireMetaBallSystem) (dt : ℚ) (o : Oracle) :
    FireMetaBallSystem × Bool × Bool :=
  let st1 := { st with spawnTimer := st.spawnTimer + dt,
                       particles := updateEach dt o.j1 o.j2 0 st.particles }
  let st2 := cullDeadParticles st1
  let clusters := clusterToFitBudget st2.emitterHeight st2.maxSprites
      st2.baseMergeDistance st2.particles
  let st3 := reconcileVisuals st2 clusters
  let st4 := maybeSpawn st3 o
  let st5 := updateSingleSprites st4
  let r := updateGroupSpritesX st5.emitterHeight st5.groups
  ({ st5 with groups := r.1 }, r.2)

/-- Mirror of `FireMetaBallSystem.update(dt)`. -/
def update (st : FireMetaBallSystem) (dt : ℚ) (o : Oracle) : FireMetaBallSystem :=
  (updateX st dt o).1

/-- States reachable from a fresh system by any sequence of `update(dt)`
calls under any random stream. -/
inductive Reachable (opts : FireMetaBallOptions) : FireMetaBallSystem → Prop where
  | init : Reachable opts (initSystem opts)
  | step : ∀ {st : FireMetaBallSystem} (dt : ℚ) (o : Oracle),
      Reachable opts st → Reachable opts (update st dt o)

/-- First sprite mapped to the given particle id. -/
def findParticleSprite (singles : List (ℕ × SpriteS)) (pid : ℕ) : Option SpriteS :=
  (singles.find? (fun e => decide (e.1 = pid))).map (·.2)

/-- The number of visible draw primitives: visible single sprites of active
unmerged particles plus attached group sprites. -/
def visibleCount (st : FireMetaBallSystem) : ℕ :=
  (st.particles.filter fun p => p.active && !p.merged &&
      (match findParticleSprite st.singleSprites p.id with
       | some s => s.visible && s.attached
       | none => false)).length
  + (st.groups.filter fun e => e.2.sprite.attached).length

/-- The clusters of size at least 2 (those the reconciler turns into
groups; singleton clusters are skipped by the `comp.length <= 1` guard). -/
def keptClusters (clusters : List (List FireMetaBallParticle)) :
    List (List FireMetaBallParticle) :=
  clusters.filter (fun c => 2 ≤ c.length)

/-- The ids of all particles belonging to some kept (size ≥ 2) cluster. -/
def keptIds (clusters : List (List FireMetaBallParticle)) : List ℕ :=
  (keptClusters clusters).flatten.map (·.id)

/-- The state invariant maintained by `update`: every stored particle is
active (the cull removes dead ones before the frame ends), particle ids are
distinct and below the id counter, and the particle count never exceeds the
sprite budget (the admission control in `maybeSpawn` enforces this). -/
structure SysInv (st : FireMetaBallSystem) : Prop where
  act : ∀ p ∈ st.particles, p.active = true
  nodup : (st.particles.map (·.id)).Nodup
  bound : ∀ p ∈ st.particles, p.id < st.nextId
  count : st.particles.length ≤ st.maxSprites

/-- A deterministic oracle (all draws zero) used to exercise the pipeline on
concrete inputs. -/
def oZero : Oracle :=
  { j1 := (fun _ => 0), j2 := (fun _ => 0), cosA := 0, sinA := 0, radius := 0,
    baseBias := 0, dirCos := 0, dirSin := 0, speedR := 0, lifeR := 0 }

/-- Concrete options for witnesses: budget 10, 100×100 emitter, default merge
distance and spawn interval. -/
def optsW : FireMetaBallOptions :=
  { max := 10, width := 100, height := 100, mergeDistance := none, spawnInterval := none }

/-- Concrete active particle template for witnesses (at rest, mid life). -/
def cxBase : FireMetaBallParticle :=
  { id := 1, x := 0, y := 44, vx := 0, vy := 0, life := 1, maxLife := 1,
    active := true, merged := false }

/-- Counterexample particles for the order-dependence of clustering:
three collinear particles at `y = 44` (where `heightScale = 1`), at
`x = 0, 10, 18`. -/
def cxA : FireMetaBallParticle := { cxBase with id := 1, x := 0 }

/-- Second particle of the order-dependence counterexample. -/
def cxB : FireMetaBallParticle := { cxBase with id := 2, x := 10 }

/-- Third particle of the order-dependence counterexample. -/
def cxC : FireMetaBallParticle := { cxBase with id := 3, x := 18 }

/-- Counterexample particles for multiplier monotonicity: two particles at
the emitter top (`heightScale = 2.12`) at `x = 11` and `x = 23`. -/
def cxQ1 : FireMetaBallParticle := { cxBase with id := 1, x := 11, y := 100 }

/-- Second particle of the monotonicity counterexample. -/
def cxQ2 : FireMetaBallParticle := { cxBase with id := 2, x := 23, y := 100 }

/-- Counterexample particles for the 3×3 grid-adequacy claim: two particles
high up (`heightScale = 2.1`) at distance `20.5` with `threshold = 10`. -/
def cxR1 : FireMetaBallParticle := { cxBase with id := 1, x := 0, y := 99 }

/-- Second particle of the grid-adequacy counterexample. -/
def cxR2 : FireMetaBallParticle := { cxBase with id := 2, x := 41/2, y := 99 }

/-- Counterexample particle for the alpha formula: an active particle with
`life = 1` and `maxLife = 4` (only a quarter of its life left). -/
def cxP5 : FireMetaBallParticle := { cxBase with life := 1, maxLife := 4 }

/-- Concrete system state with one mid-life particle, used to demonstrate
that a negative `dt` mutates the state. -/
def stC9 : FireMetaBallSystem :=
  { maxSprites := 10, emitterWidth := 100, emitterHeight := 100, baseMergeDistance := 5,
    spawnTimer := 0, spawnInterval := 15/100,
    particles := [{ cxBase with x := 5, y := 5, vx := 1, vy := 1, life := 1, maxLife := 2 }],
    singleSprites := [(1, mkSprite 0 5 5)], groups := [], nextId := 2, nextHid := 1 }

/-- Concrete reconciler input for the identity-stability witness: one tracked
group for the pair `{1, 2}`. -/
def stC4 : FireMetaBallSystem :=
  { maxSprites := 10, emitterWidth := 100, emitterHeight := 100, baseMergeDistance := 5,
    spawnTimer := 0, spawnInterval := 15/100,
    particles := [cxA, cxB],
    singleSprites := [(1, mkSprite 0 0 44), (2, mkSprite 1 10 44)],
    groups := [([1, 2],
      { key := [1, 2], particles := [cxA, cxB], sprite := mkSprite 5 0 44, anchor := cxA })],
    nextId := 3, nextHid := 6 }

/-! ### Lemmas about the grid buckets -/

/-- Membership after `bucketsAdd`: an element of the updated bucket list was
already bucketed or is the newly added particle. -/
lemma mem_bucketsGet_bucketsAdd {b : Buckets} {k0 k : ℤ × ℤ}
    {p q : FireMetaBallParticle} (h : q ∈ bucketsGet (bucketsAdd b k0 p) k) :
    q ∈ bucketsGet b k ∨ q = p := by
  induction b with
  | nil =>
    simp only [bucketsAdd, bucketsGet] at h
    split at h
    · simp at h; exact Or.inr h
    · simp [bucketsGet] at h
  | cons e rest ih =>
    obtain ⟨k1, l⟩ := e
    simp only [bucketsAdd] at h
    by_cases hk1 : k1 = k0
    · subst hk1
      simp only [if_pos rfl, bucketsGet] at h
      by_cases hkk : k1 = k
      · rw [if_pos hkk] at h
        rcases List.mem_append.1 h with h1 | h1
        · exact Or.inl (by simp [bucketsGet, hkk, h1])
        · simp at h1; exact Or.inr h1
      · rw [if_neg hkk] at h
        exact Or.inl (by simpa [bucketsGet, hkk] using h)
    · rw [if_neg hk1] at h
      simp only [bucketsGet] at h
      by_cases hkk : k1 = k
      · rw [if_pos hkk] at h
        exact Or.inl (by simp [bucketsGet, hkk, h])
      · rw [if_neg hkk] at h
        rcases ih h with h1 | h1
        · exact Or.inl (by simpa [bucketsGet, hkk] using h1)
        · exact Or.inr h1

/-- Everything bucketed by `buildBuckets` comes from the input list. -/
lemma mem_buildBuckets {cell : ℚ} {ps : List FireMetaBallParticle} {k : ℤ × ℤ}
    {q : FireMetaBallParticle} (h : q ∈ bucketsGet (buildBuckets cell ps) k) : q ∈ ps := by
  unfold buildBuckets at h
  revert h
  refine List.foldlRecOn ps _ ([] : Buckets)
    (motive := fun b => ∀ k q, q ∈ bucketsGet b k → q ∈ ps) ?_ ?_ k q
  · intro k q hq; simp [bucketsGet] at hq
  · intro b hb p hp k q hq
    rcases mem_bucketsGet_bucketsAdd hq with h1 | h1
    · exact hb _ _ h1
    · exact h1 ▸ hp

/-- Everything returned by `candidates` comes from some bucket. -/
lemma mem_candidates {cell : ℚ} {b : Buckets} {px py : ℚ}
    {q : FireMetaBallParticle} (h : q ∈ candidates cell b px py) :
    ∃ k, q ∈ bucketsGet b k := by
  unfold candidates at h
  simp only [] at h
  obtain ⟨l, hl, hq⟩ := List.mem_flatten.1 h
  obtain ⟨oy, _, rfl⟩ := List.mem_map.1 hl
  obtain ⟨l2, hl2, hq2⟩ := List.mem_flatten.1 hq
  obtain ⟨ox, _, rfl⟩ := List.mem_map.1 hl2
  exact ⟨_, hq2⟩

/-! ### The admitted-neighbour relation and the flood-fill invariants -/

/-- The admitted-neighbour graph restricted to a component: two particles are
adjacent when both belong to the component and the pairwise admission test
holds between them. Every neighbour admission actually performed by the flood
fill crosses such an edge (the cohesion test only restricts admission
further), so reachability in this graph is the connectivity guarantee of a
cluster. -/
def clusterRel (H thr : ℚ) (c : List FireMetaBallParticle)
    (a b : FireMetaBallParticle) : Prop :=
  a ∈ c ∧ b ∈ c ∧ pairTestB H thr a b = true

/-- The pairwise test is symmetric in its two particles. -/
lemma pairTestB_symm (H thr : ℚ) (a b : FireMetaBallParticle) :
    pairTestB H thr a b = pairTestB H thr b a := by
  simp only [pairTestB, decide_eq_decide]
  have e : (a.x - b.x) * (a.x - b.x) + (a.y - b.y) * (a.y - b.y)
      = (b.x - a.x) * (b.x - a.x) + (b.y - a.y) * (b.y - a.y) := by ring
  rw [e, max_comm]

/-- The relation `clusterRel` is symmetric. -/
lemma clusterRel_symmetric (H thr : ℚ) (c : List FireMetaBallParticle) :
    Symmetric (clusterRel H thr c) := by
  rintro a b ⟨h1, h2, h3⟩
  exact ⟨h2, h1, by rw [pairTestB_symm]; exact h3⟩

/-- The relation `clusterRel` grows with the component. -/
lemma clusterRel_mono {H thr : ℚ} {c c' : List FireMetaBallParticle} (hsub : c ⊆ c') :
    ∀ a b, clusterRel H thr c a b → clusterRel H thr c' a b := by
  rintro a b ⟨h1, h2, h3⟩
  exact ⟨hsub h1, hsub h2, h3⟩

/-- Case analysis for `admitStep`: either the candidate is rejected and the
state is unchanged, or it was unvisited, passed the pairwise test, and is
marked, appended to the component and pushed. -/
lemma admitStep_cases (H thr : ℚ) (cur nb : FireMetaBallParticle) (s : DfsState) :
    admitStep H thr cur s nb = s ∨
    (nb.id ∉ s.visited ∧ pairTestB H thr cur nb = true ∧
     (admitStep H thr cur s nb).visited = nb.id :: s.visited ∧
     (admitStep H thr cur s nb).comp = s.comp ++ [nb] ∧
     (admitStep H thr cur s nb).stack = nb :: s.stack) := by
  unfold admitStep
  rcases Decidable.em (nb.id ∈ s.visited ∨ nb.id = cur.id) with h1 | h1
  · simp [h1]
  cases h2 : pairTestB H thr cur nb with
  | false => simp [h1, h2]
  | true =>
    cases h3 : cohesionTestB H thr s.sumX s.sumY s.count nb with
    | false => simp [h1, h2, h3]
    | true =>
      right
      refine ⟨fun hv => h1 (Or.inl hv), rfl, ?_, ?_, ?_⟩ <;> simp [h1, h2, h3]

/-- Invariant of one flood fill: the visited set is duplicate-free and is
exactly the ids of the current component on top of the previously visited ids
`V0`; the component consists of input particles, contains the seed and every
stack entry, and every member is reachable from the seed in the
admitted-neighbour graph of the component. -/
structure DfsInv (H thr : ℚ) (ps : List FireMetaBallParticle) (V0 : List ℕ)
    (seed : FireMetaBallParticle) (s : DfsState) : Prop where
  nodup : s.visited.Nodup
  perm : s.visited.Perm (s.comp.map (·.id) ++ V0)
  compMem : ∀ p ∈ s.comp, p ∈ ps
  stackMem : ∀ p ∈ s.stack, p ∈ s.comp
  seedMem : seed ∈ s.comp
  conn : ∀ p ∈ s.comp, Relation.ReflTransGen (clusterRel H thr s.comp) seed p

/-- The step `admitStep` preserves the flood-fill invariant and only grows the
component and the visited set. -/
lemma admitStep_inv {H thr : ℚ} {ps : List FireMetaBallParticle} {V0 : List ℕ}
    {seed cur nb : FireMetaBallParticle} {s : DfsState}
    (hinv : DfsInv H thr ps V0 seed s) (hcur : cur ∈ s.comp) (hnb : nb ∈ ps) :
    DfsInv H thr ps V0 seed (admitStep H thr cur s nb) ∧
    s.comp ⊆ (admitStep H thr cur s nb).comp ∧
    s.visited ⊆ (admitStep H thr cur s nb).visited := by
  rcases admitStep_cases H thr cur nb s with h | ⟨hnv, hpair, hv, hc, hst⟩
  · rw [h]; exact ⟨hinv, List.Subset.refl _, List.Subset.refl _⟩
  have hsub : s.comp ⊆ (admitStep H thr cur s nb).comp := by
    rw [hc]; exact fun x hx => List.mem_append.2 (Or.inl hx)
  have hnbmem : nb ∈ (admitStep H thr cur s nb).comp := by
    rw [hc]; exact List.mem_append.2 (Or.inr (List.mem_singleton.2 rfl))
  refine ⟨⟨?_, ?_, ?_, ?_, ?_, ?_⟩, hsub, ?_⟩
  · rw [hv]; exact List.nodup_cons.2 ⟨hnv, hinv.nodup⟩
  · rw [hv, hc]
    have h1 : (nb.id :: s.visited).Perm (nb.id :: (s.comp.map (·.id) ++ V0)) :=
      hinv.perm.cons _
    have h2 : (([nb.id] ++ s.comp.map (·.id)) ++ V0).Perm
        ((s.comp.map (·.id) ++ [nb.id]) ++ V0) :=
      (List.perm_append_comm).append_right V0
    refine h1.trans ?_
    simpa using h2
  · intro p hp
    rw [hc] at hp
    rcases List.mem_append.1 hp with h1 | h1
    · exact hinv.compMem p h1
    · rw [List.mem_singleton.1 h1]; exact hnb
  · intro p hp
    rw [hst] at hp
    rcases List.mem_cons.1 hp with h1 | h1
    · rw [h1]; exact hnbmem
    · exact hsub (hinv.stackMem p h1)
  · exact hsub hinv.seedMem
  · intro p hp
    rw [hc] at hp
    rcases List.mem_append.1 hp with h1 | h1
    · exact Relation.ReflTransGen.mono (clusterRel_mono (by rw [hc] at hsub ⊢; exact hsub))
        (hinv.conn p h1)
    · rw [List.mem_singleton.1 h1]
      have hcur2 : Relation.ReflTransGen (clusterRel H thr (admitStep H thr cur s nb).comp)
          seed cur :=
        Relation.ReflTransGen.mono (clusterRel_mono hsub) (hinv.conn cur hcur)
      exact hcur2.tail ⟨hsub hcur, hnbmem, hpair⟩
  · rw [hv]; exact fun x hx => List.mem_cons.2 (Or.inr hx)

/-- Folding `admitStep` over a candidate list drawn from the input particles
preserves the flood-fill invariant and only grows component and visited set. -/
lemma foldl_admit_inv {H thr : ℚ} {ps : List FireMetaBallParticle} {V0 : List ℕ}
    {seed cur : FireMetaBallParticle} {s : DfsState}
    (cands : List FireMetaBallParticle)
    (hinv : DfsInv H thr ps V0 seed s) (hcur : cur ∈ s.comp)
    (hcands : ∀ p ∈ cands, p ∈ ps) :
    DfsInv H thr ps V0 seed (cands.foldl (admitStep H thr cur) s) ∧
    s.comp ⊆ (cands.foldl (admitStep H thr cur) s).comp ∧
    s.visited ⊆ (cands.foldl (admitStep H thr cur) s).visited := by
  have h := List.foldlRecOn cands (admitStep H thr cur) s
    (motive := fun st => DfsInv H thr ps V0 seed st ∧ cur ∈ st.comp ∧
      s.comp ⊆ st.comp ∧ s.visited ⊆ st.visited)
    ⟨hinv, hcur, List.Subset.refl _, List.Subset.refl _⟩
    (fun st hst nb hnb => by
      obtain ⟨h1, h2, h3, h4⟩ := hst
      obtain ⟨g1, g2, g3⟩ := admitStep_inv h1 h2 (hcands nb hnb)
      exact ⟨g1, g2 h2, h3.trans g2, h4.trans g3⟩)
  exact ⟨h.1, h.2.2.1, h.2.2.2⟩

/-- The loop `dfsLoop` preserves the flood-fill invariant and only grows the visited
set. -/
lemma dfsLoop_inv {H thr : ℚ} {b : Buckets} {ps : List FireMetaBallParticle}
    {V0 : List ℕ} {seed : FireMetaBallParticle}
    (hb : ∀ k, ∀ q ∈ bucketsGet b k, q ∈ ps) :
    ∀ (fuel : ℕ) (s : DfsState), DfsInv H thr ps V0 seed s →
      DfsInv H thr ps V0 seed (dfsLoop H thr b fuel s) ∧
      s.visited ⊆ (dfsLoop H thr b fuel s).visited := by
  intro fuel
  induction fuel with
  | zero => exact fun s h => ⟨h, List.Subset.refl _⟩
  | succ n ih =>
    intro s h
    cases hs : s.stack with
    | nil =>
      simp only [dfsLoop, hs]
      exact ⟨h, List.Subset.refl _⟩
    | cons cur rest =>
      simp only [dfsLoop, hs]
      have hcur : cur ∈ s.comp := h.stackMem cur (by rw [hs]; exact List.mem_cons_self _ _)
      have hinv1 : DfsInv H thr ps V0 seed { s with stack := rest } :=
        ⟨h.nodup, h.perm, h.compMem,
         fun p hp => h.stackMem p (by rw [hs]; exact List.mem_cons.2 (Or.inr hp)),
         h.seedMem, h.conn⟩
      have hcands : ∀ p ∈ candidates thr b cur.x cur.y, p ∈ ps := by
        intro p hp
        obtain ⟨k, hk⟩ := mem_candidates hp
        exact hb k p hk
      obtain ⟨g1, g2, g3⟩ := foldl_admit_inv _ hinv1 hcur hcands
      obtain ⟨f1, f2⟩ := ih _ g1
      exact ⟨f1, g3.trans f2⟩

/-- Invariant of the outer seed loop: the global visited set is
duplicate-free and is exactly the ids of all particles clustered so far; the
clusters consist of input particles, are non-empty, and each has a member
from which all members are reachable in its admitted-neighbour graph. -/
structure SeedInv (H thr : ℚ) (ps : List FireMetaBallParticle)
    (acc : List ℕ × List (List FireMetaBallParticle)) : Prop where
  nodup : acc.1.Nodup
  perm : acc.1.Perm (acc.2.flatten.map (·.id))
  mem : ∀ c ∈ acc.2, ∀ p ∈ c, p ∈ ps
  nonempty : ∀ c ∈ acc.2, c ≠ []
  conn : ∀ c ∈ acc.2, ∃ s ∈ c, ∀ p ∈ c, Relation.ReflTransGen (clusterRel H thr c) s p

/-- The step `seedStep` preserves the seed-loop invariant, grows the visited set, and
leaves the processed seed visited. -/
lemma seedStep_inv {H thr : ℚ} {b : Buckets} {fuel : ℕ}
    {ps : List FireMetaBallParticle} {acc : List ℕ × List (List FireMetaBallParticle)}
    {seed : FireMetaBallParticle}
    (hb : ∀ k, ∀ q ∈ bucketsGet b k, q ∈ ps)
    (hseed : seed ∈ ps) (hinv : SeedInv H thr ps acc) :
    SeedInv H thr ps (seedStep H thr b fuel acc seed) ∧
    acc.1 ⊆ (seedStep H thr b fuel acc seed).1 ∧
    seed.id ∈ (seedStep H thr b fuel acc seed).1 := by
  by_cases hv : seed.id ∈ acc.1
  · simp only [seedStep, if_pos hv]
    exact ⟨hinv, List.Subset.refl _, hv⟩
  simp only [seedStep, if_neg hv]
  have hinv0 : DfsInv H thr ps acc.1 seed
      { visited := seed.id :: acc.1, comp := [seed], sumX := seed.x, sumY := seed.y,
        count := 1, stack := [seed] } := by
    refine ⟨List.nodup_cons.2 ⟨hv, hinv.nodup⟩, List.Perm.refl _, ?_, ?_, ?_, ?_⟩
    · intro p hp; rw [List.mem_singleton.1 hp]; exact hseed
    · intro p hp; exact hp
    · exact List.mem_singleton.2 rfl
    · intro p hp; rw [List.mem_singleton.1 hp]
  obtain ⟨g1, g2⟩ := dfsLoop_inv hb fuel _ hinv0
  refine ⟨⟨g1.nodup, ?_, ?_, ?_, ?_⟩,
    fun x hx => g2 (List.mem_cons.2 (Or.inr hx)),
    g2 (List.mem_cons_self _ _)⟩
  · have e1 : (acc.2 ++
        [(dfsLoop H thr b fuel
          { visited := seed.id :: acc.1, comp := [seed], sumX := seed.x, sumY := seed.y,
            count := 1, stack := [seed] }).comp]).flatten
        = acc.2.flatten ++ (dfsLoop H thr b fuel
          { visited := seed.id :: acc.1, comp := [seed], sumX := seed.x, sumY := seed.y,
            count := 1, stack := [seed] }).comp := by simp
    rw [e1, List.map_append]
    exact (g1.perm.trans (hinv.perm.append_left _)).trans List.perm_append_comm
  · intro c hc
    rcases List.mem_append.1 hc with h1 | h1
    · exact hinv.mem c h1
    · rw [List.mem_singleton.1 h1]; exact g1.compMem
  · intro c hc
    rcases List.mem_append.1 hc with h1 | h1
    · exact hinv.nonempty c h1
    · rw [List.mem_singleton.1 h1]
      exact List.ne_nil_of_mem g1.seedMem
  · intro c hc
    rcases List.mem_append.1 hc with h1 | h1
    · exact hinv.conn c h1
    · rw [List.mem_singleton.1 h1]
      exact ⟨seed, g1.seedMem, g1.conn⟩

/-- Folding `seedStep` over any sublist of the input particles preserves the
seed-loop invariant and visits every processed particle. -/
lemma foldl_seed_inv {H thr : ℚ} {b : Buckets} {fuel : ℕ}
    {ps : List FireMetaBallParticle}
    (hb : ∀ k, ∀ q ∈ bucketsGet b k, q ∈ ps) :
    ∀ (l : List FireMetaBallParticle) (acc : List ℕ × List (List FireMetaBallParticle)),
      (∀ x ∈ l, x ∈ ps) → SeedInv H thr ps acc →
      SeedInv H thr ps (l.foldl (seedStep H thr b fuel) acc) ∧
      acc.1 ⊆ (l.foldl (seedStep H thr b fuel) acc).1 ∧
      ∀ x ∈ l, x.id ∈ (l.foldl (seedStep H thr b fuel) acc).1 := by
  intro l
  induction l with
  | nil =>
    intro acc _ hinv
    exact ⟨hinv, List.Subset.refl _, by intro x hx; exact absurd hx (List.not_mem_nil x)⟩
  | cons p rest ih =>
    intro acc hl hinv
    obtain ⟨h1, h2, h3⟩ := seedStep_inv hb (hl p (List.mem_cons_self _ _)) hinv
    obtain ⟨g1, g2, g3⟩ := ih (seedStep H thr b fuel acc p)
      (fun x hx => hl x (List.mem_cons.2 (Or.inr hx))) h1
    refine ⟨g1, h2.trans g2, ?_⟩
    intro x hx
    rcases List.mem_cons.1 hx with h4 | h4
    · rw [h4]; exact g2 h3
    · exact g3 x h4

/-- Structural specification of `clusterParticles` for inputs with distinct
ids: the clusters flatten to a permutation of the input (every particle is in
exactly one cluster), every cluster is non-empty, and every cluster has a
member from which all members are reachable in its admitted-neighbour
graph. -/
theorem clusterParticles_spec (H thr : ℚ) (ps : List FireMetaBallParticle)
    (hn : (ps.map (·.id)).Nodup) :
    (clusterParticles H ps thr).flatten.Perm ps ∧
    (∀ c ∈ clusterParticles H ps thr, c ≠ []) ∧
    (∀ c ∈ clusterParticles H ps thr, ∃ s ∈ c, ∀ p ∈ c,
      Relation.ReflTransGen (clusterRel H thr c) s p) := by
  have hb : ∀ k, ∀ q ∈ bucketsGet (buildBuckets thr ps) k, q ∈ ps :=
    fun k q hq => mem_buildBuckets hq
  have h0 : SeedInv H thr ps (([], []) : List ℕ × List (List FireMetaBallParticle)) := by
    refine ⟨List.nodup_nil, by simp, ?_, ?_, ?_⟩ <;>
      intro c hc <;> exact absurd hc (List.not_mem_nil c)
  obtain ⟨hinv, _, hall⟩ :=
    @foldl_seed_inv H thr (buildBuckets thr ps) (ps.length + 1) ps hb ps ([], [])
      (fun x hx => hx) h0
  have hres : clusterParticles H ps thr =
      (ps.foldl (seedStep H thr (buildBuckets thr ps) (ps.length + 1)) ([], [])).2 := rfl
  rw [hres]
  refine ⟨?_, hinv.nonempty, hinv.conn⟩
  have hFsub : (ps.foldl (seedStep H thr (buildBuckets thr ps) (ps.length + 1))
      ([], [])).2.flatten ⊆ ps := by
    intro p hp
    obtain ⟨c, hc, hpc⟩ := List.mem_flatten.1 hp
    exact hinv.mem c hc p hpc
  have hidsNodup : ((ps.foldl (seedStep H thr (buildBuckets thr ps) (ps.length + 1))
      ([], [])).2.flatten.map (·.id)).Nodup := hinv.perm.nodup_iff.1 hinv.nodup
  have hFNodup : (ps.foldl (seedStep H thr (buildBuckets thr ps) (ps.length + 1))
      ([], [])).2.flatten.Nodup := hidsNodup.of_map
  have hsubperm := hFNodup.subperm hFsub
  refine hsubperm.perm_of_length_le ?_
  have hmapsub : ps.map (·.id) ⊆ (ps.foldl (seedStep H thr (buildBuckets thr ps)
      (ps.length + 1)) ([], [])).2.flatten.map (·.id) := by
    intro x hx
    obtain ⟨p, hp, rfl⟩ := List.mem_map.1 hx
    exact (hinv.perm.mem_iff).1 (hall p hp)
  have hlen := (hn.subperm hmapsub).length_le
  rw [List.length_map, List.length_map] at hlen
  exact hlen

/-- Clustering the empty particle list yields the empty cluster list. -/
lemma clusterParticles_nil (H thr : ℚ) : clusterParticles H [] thr = [] := rfl

/-- A list of non-empty lists whose flatten is a permutation of a singleton
is the singleton list of that singleton. -/
lemma flatten_perm_singleton {p : FireMetaBallParticle}
    {l : List (List FireMetaBallParticle)} (hne : ∀ c ∈ l, c ≠ [])
    (h : l.flatten.Perm [p]) : l = [[p]] := by
  have hfl : l.flatten = [p] := List.perm_singleton.1 h
  cases l with
  | nil => simp at hfl
  | cons c rest =>
    cases c with
    | nil => exact absurd rfl (hne [] (List.mem_cons_self _ _))
    | cons x c1 =>
      simp only [List.flatten_cons, List.cons_append, List.cons.injEq] at hfl
      obtain ⟨rfl, hfl2⟩ := hfl
      have hc1 : c1 = [] := by
        cases c1 with
        | nil => rfl
        | cons y c2 => simp at hfl2
      subst hc1
      simp only [List.nil_append] at hfl2
      have hrest : rest = [] := by
        cases rest with
        | nil => rfl
        | cons c2 rest2 =>
          have hc2 := hne c2 (List.mem_cons.2 (Or.inr (List.mem_cons_self _ _)))
          cases c2 with
          | nil => exact absurd rfl hc2
          | cons z c3 => simp at hfl2
      subst hrest
      rfl

/-- Clustering a single particle yields one singleton cluster. -/
lemma clusterParticles_singleton (H thr : ℚ) (p : FireMetaBallParticle) :
    clusterParticles H [p] thr = [[p]] := by
  obtain ⟨hperm, hne, _⟩ := clusterParticles_spec H thr [p] (by simp)
  exact flatten_perm_singleton hne hperm

/-- The loop `fitLoop` over a non-empty multiplier list always returns the clustering
computed at one of the multipliers. -/
lemma fitLoop_result (H base : ℚ) (maxS : ℕ) (actives : List FireMetaBallParticle) :
    ∀ (ms : List ℚ) (chosen : List (List FireMetaBallParticle)), ms ≠ [] →
    ∃ m ∈ ms, fitLoop H base maxS actives ms chosen =
      clusterParticles H actives (base * m) := by
  intro ms
  induction ms with
  | nil => intro chosen h; exact absurd rfl h
  | cons m rest ih =>
    intro chosen _
    by_cases h : (clusterParticles H actives (base * m)).length ≤ maxS
    · exact ⟨m, List.mem_cons_self _ _, by simp [fitLoop, h]⟩
    · cases hr : rest with
      | nil =>
        refine ⟨m, List.mem_cons_self _ _, ?_⟩
        simp [fitLoop, h, hr]
      | cons m2 rest2 =>
        obtain ⟨m1, hm1, he⟩ := ih (clusterParticles H actives (base * m)) (by rw [hr]; simp)
        rw [hr] at hm1
        refine ⟨m1, List.mem_cons.2 (Or.inr (hr ▸ hm1)), ?_⟩
        rw [← hr] at hm1 ⊢
        simp only [fitLoop, if_neg h]
        exact he

/-- Full characterisation of `fitLoop`: either some multiplier fits the
budget and the result is the clustering at the first such multiplier, or none
fits and the result is the clustering at the last multiplier (the initial
`chosen` for an empty list). -/
lemma fitLoop_spec (H base : ℚ) (maxS : ℕ) (actives : List FireMetaBallParticle) :
    ∀ (ms : List ℚ) (chosen : List (List FireMetaBallParticle)),
    (∃ pre m post, ms = pre ++ m :: post ∧
       (∀ m' ∈ pre, maxS < (clusterParticles H actives (base * m')).length) ∧
       (clusterParticles H actives (base * m)).length ≤ maxS ∧
       fitLoop H base maxS actives ms chosen = clusterParticles H actives (base * m)) ∨
    ((∀ m' ∈ ms, maxS < (clusterParticles H actives (base * m')).length) ∧
     ((ms = [] ∧ fitLoop H base maxS actives ms chosen = chosen) ∨
      (∃ mlast, ms.getLast? = some mlast ∧
        fitLoop H base maxS actives ms chosen = clusterParticles H actives (base * mlast)))) := by
  intro ms
  induction ms with
  | nil =>
    intro chosen
    right
    exact ⟨fun m' hm' => absurd hm' (List.not_mem_nil m'), Or.inl ⟨rfl, rfl⟩⟩
  | cons m rest ih =>
    intro chosen
    by_cases h : (clusterParticles H actives (base * m)).length ≤ maxS
    · left
      exact ⟨[], m, rest, rfl, fun m' hm' => absurd hm' (List.not_mem_nil m'), h,
        by simp [fitLoop, h]⟩
    · rcases ih (clusterParticles H actives (base * m)) with
        ⟨pre, m1, post, heq, hpre, hm1, hres⟩ | ⟨hfail, hrest⟩
      · left
        refine ⟨m :: pre, m1, post, by rw [heq, List.cons_append], ?_, hm1, ?_⟩
        · intro m' hm'
          rcases List.mem_cons.1 hm' with h1 | h1
          · rw [h1]; exact Nat.lt_of_not_le h
          · exact hpre m' h1
        · simp only [fitLoop, if_neg h]
          exact hres
      · right
        constructor
        · intro m' hm'
          rcases List.mem_cons.1 hm' with h1 | h1
          · rw [h1]; exact Nat.lt_of_not_le h
          · exact hfail m' h1
        · rcases hrest with ⟨hnil, hres⟩ | ⟨mlast, hlast, hres⟩
          · subst hnil
            refine Or.inr ⟨m, rfl, ?_⟩
            simp [fitLoop, if_neg h]
          · refine Or.inr ⟨mlast, ?_, ?_⟩
            · cases rest with
              | nil => simp at hlast
              | cons m2 rest2 => rw [List.getLast?_cons_cons]; exact hlast
            · simp only [fitLoop, if_neg h]
              exact hres

/-! ### Small list and particle bookkeeping lemmas -/

/-- Splitting a filter by a predicate and its negation counts the whole
list. -/
lemma length_filter_split {α : Type} (p : α → Bool) (l : List α) :
    (l.filter p).length + (l.filter (fun a => !p a)).length = l.length := by
  induction l with
  | nil => rfl
  | cons a l ih =>
    cases h : p a <;> simp [List.filter_cons, h, ← ih] <;> omega

/-- Integration via `updateP` never changes the particle id. -/
lemma updateP_id (p : FireMetaBallParticle) (dt r1 r2 : ℚ) :
    (p.updateP dt r1 r2).id = p.id := by
  unfold FireMetaBallParticle.updateP
  split <;> rfl

/-- The integration loop preserves the id sequence. -/
lemma updateEach_map_id (dt : ℚ) (j1 j2 : ℕ → ℚ) :
    ∀ (i : ℕ) (ps : List FireMetaBallParticle),
      (updateEach dt j1 j2 i ps).map (·.id) = ps.map (·.id) := by
  intro i ps
  induction ps generalizing i with
  | nil => rfl
  | cons p rest ih => simp [updateEach, updateP_id, ih]

/-- The map update `setKey` grows the map by at most one entry. -/
lemma setKey_length (k : List ℕ) (g : ParticleGroup) :
    ∀ l : List (List ℕ × ParticleGroup),
      (setKey k g l).length ≤ l.length + 1 := by
  intro l
  induction l with
  | nil => simp [setKey]
  | cons e rest ih =>
    obtain ⟨k1, g1⟩ := e
    by_cases h : k1 = k <;> simp [setKey, h] <;> omega

/-- Membership after `setKey`: the new binding or an old entry. -/
lemma mem_setKey {k : List ℕ} {g : ParticleGroup} {e : List ℕ × ParticleGroup} :
    ∀ {l : List (List ℕ × ParticleGroup)}, e ∈ setKey k g l → e = (k, g) ∨ e ∈ l := by
  intro l
  induction l with
  | nil => intro h; simp [setKey] at h; exact Or.inl h
  | cons e1 rest ih =>
    obtain ⟨k1, g1⟩ := e1
    intro h
    by_cases hk : k1 = k
    · simp only [setKey, if_pos hk] at h
      rcases List.mem_cons.1 h with h1 | h1
      · exact Or.inl h1
      · exact Or.inr (List.mem_cons.2 (Or.inr h1))
    · simp only [setKey, if_neg hk] at h
      rcases List.mem_cons.1 h with h1 | h1
      · exact Or.inr (List.mem_cons.2 (Or.inl h1))
      · rcases ih h1 with h2 | h2
        · exact Or.inl h2
        · exact Or.inr (List.mem_cons.2 (Or.inr h2))

/-- The anchor picked for a non-empty component is one of its members. -/
lemma pickAnchor_mem (H : ℚ) {comp : List FireMetaBallParticle} (h : comp ≠ []) :
    pickAnchor H comp ∈ comp := by
  cases comp with
  | nil => exact absurd rfl h
  | cons first rest =>
    unfold pickAnchor
    have hmain := List.foldlRecOn (first :: rest)
      (fun best p =>
        let yNorm := max 0 (min 1 (p.y / H))
        let score := yNorm * (65/100) + p.getAlpha * (35/100)
        if anchorBetter score best.2 then (p, some score) else best)
      ((first, none) : FireMetaBallParticle × Option ℚ)
      (motive := fun best => best.1 ∈ first :: rest)
      (List.mem_cons_self _ _)
      (fun best hbest p hp => by
        dsimp only
        split
        · exact hp
        · exact hbest)
    exact hmain

/-- Marking via `markMerged` preserves ids pointwise. -/
lemma markMerged_map_id (ids : List ℕ) (ps : List FireMetaBallParticle) :
    (markMerged ids ps).map (·.id) = ps.map (·.id) := by
  unfold markMerged
  rw [List.map_map]
  refine List.map_congr_left ?_
  intro p _
  by_cases h : p.id ∈ ids <;> simp [h]

/-- Marking via `markMerged` preserves activity pointwise. -/
lemma markMerged_active (ids : List ℕ) (ps : List FireMetaBallParticle)
    (h : ∀ p ∈ ps, p.active = true) : ∀ p ∈ markMerged ids ps, p.active = true := by
  intro p hp
  unfold markMerged at hp
  obtain ⟨q, hq, rfl⟩ := List.mem_map.1 hp
  by_cases hm : q.id ∈ ids <;> simp [hm, h q hq]

/-- Marking twice marks the union. -/
lemma markMerged_markMerged (A B : List ℕ) (ps : List FireMetaBallParticle) :
    markMerged B (markMerged A ps) = markMerged (A ++ B) ps := by
  unfold markMerged
  rw [List.map_map]
  refine List.map_congr_left ?_
  intro p _
  by_cases hA : p.id ∈ A
  · by_cases hB : p.id ∈ B <;>
      simp [hA, hB, Function.comp, List.mem_append]
  · by_cases hB : p.id ∈ B <;>
      simp [hA, hB, Function.comp, List.mem_append]

/-- Marking nothing changes nothing. -/
lemma markMerged_nil (ps : List FireMetaBallParticle) : markMerged [] ps = ps := by
  unfold markMerged
  simp

/-- The flatten of a filtered list is a sublist of the flatten. -/
lemma flatten_filter_sublist {α : Type} (q : List α → Bool) :
    ∀ l : List (List α), ((l.filter q).flatten).Sublist l.flatten := by
  intro l
  induction l with
  | nil => simp
  | cons c rest ih =>
    by_cases h : q c
    · simpa [List.filter_cons, h] using ih.append_left c
    · simp only [List.filter_cons, h, Bool.false_eq_true, if_false, cond_false,
        List.flatten_cons]
      exact ih.trans (List.sublist_append_right c rest.flatten)

/-- A list of non-empty lists is no longer than its flatten. -/
lemma length_le_flatten_length {α : Type} :
    ∀ {l : List (List α)}, (∀ c ∈ l, c ≠ []) → l.length ≤ l.flatten.length := by
  intro l
  induction l with
  | nil => intro _; simp
  | cons c rest ih =>
    intro h
    have hc := h c (List.mem_cons_self _ _)
    have h1 : 1 ≤ c.length := by
      cases c with
      | nil => exact absurd rfl hc
      | cons a t => simp
    have h2 := ih (fun d hd => h d (List.mem_cons.2 (Or.inr hd)))
    simp only [List.flatten_cons, List.length_cons, List.length_append]
    omega

/-- Counting particles whose id lies in a duplicate-free id list `K` drawn
from the (duplicate-free) ids of the particle list: exactly `K.length` many
match. -/
lemma filter_mem_length {K : List ℕ} {ps : List FireMetaBallParticle}
    (hK : K ⊆ ps.map (·.id)) (hKn : K.Nodup) (hpsn : (ps.map (·.id)).Nodup) :
    (ps.filter (fun p => decide (p.id ∈ K))).length = K.length := by
  have hperm : ((ps.map (·.id)).filter (fun i => decide (i ∈ K))).Perm K := by
    rw [List.perm_ext_iff_of_nodup (hpsn.filter _) hKn]
    intro i
    simp only [List.mem_filter, decide_eq_true_eq]
    exact ⟨fun h => h.2, fun h => ⟨hK h, h⟩⟩
  have hmap : (ps.map (·.id)).filter (fun i => decide (i ∈ K))
      = (ps.filter (fun p => decide (p.id ∈ K))).map (·.id) :=
    List.filter_map (·.id) ps
  calc (ps.filter (fun p => decide (p.id ∈ K))).length
      = ((ps.filter (fun p => decide (p.id ∈ K))).map (·.id)).length := by
        rw [List.length_map]
    _ = ((ps.map (·.id)).filter (fun i => decide (i ∈ K))).length := by rw [hmap]
    _ = K.length := hperm.length_eq

/-! ### Behaviour of the reconciliation fold -/

/-- The particle list after the cluster fold of `reconcileVisuals`: exactly
the members of kept clusters get their merged flag set. -/
lemma rec_foldl_parts (H : ℚ) (og : List (List ℕ × ParticleGroup)) :
    ∀ (cs : List (List FireMetaBallParticle)) (acc : RecAcc),
      (cs.foldl (recClusterStep H og) acc).parts = markMerged (keptIds cs) acc.parts := by
  intro cs
  induction cs with
  | nil =>
    intro acc
    simp [keptIds, keptClusters, markMerged_nil]
  | cons c rest ih =>
    intro acc
    by_cases h : c.length ≤ 1
    · have hk : keptIds (c :: rest) = keptIds rest := by
        simp only [keptIds, keptClusters, List.filter_cons]
        have : ¬ 2 ≤ c.length := by omega
        simp [this]
      rw [List.foldl_cons, hk]
      have hstep : recClusterStep H og acc c = acc := by
        unfold recClusterStep
        rw [if_pos h]
      rw [hstep]
      exact ih acc
    · have h2 : 2 ≤ c.length := by omega
      have hk : keptIds (c :: rest) = c.map (·.id) ++ keptIds rest := by
        simp only [keptIds, keptClusters, List.filter_cons]
        simp [h2]
      rw [List.foldl_cons, hk]
      have hparts : (recClusterStep H og acc c).parts = markMerged (c.map (·.id)) acc.parts := by
        unfold recClusterStep
        rw [if_neg h]
        cases hg : lookupKey og (keyFor c) <;> simp [hg]
      rw [ih (recClusterStep H og acc c), hparts, markMerged_markMerged]

/-- The `next` map grows by at most the number of kept clusters. -/
lemma rec_foldl_next_length (H : ℚ) (og : List (List ℕ × ParticleGroup)) :
    ∀ (cs : List (List FireMetaBallParticle)) (acc : RecAcc),
      (cs.foldl (recClusterStep H og) acc).next.length ≤
        acc.next.length + (keptClusters cs).length := by
  intro cs
  induction cs with
  | nil => intro acc; simp [keptClusters]
  | cons c rest ih =>
    intro acc
    by_cases h : c.length ≤ 1
    · have hstep : recClusterStep H og acc c = acc := by
        unfold recClusterStep; rw [if_pos h]
      have hk : (keptClusters (c :: rest)).length = (keptClusters rest).length := by
        have : ¬ 2 ≤ c.length := by omega
        simp [keptClusters, List.filter_cons, this]
      rw [List.foldl_cons, hstep, hk]
      exact ih acc
    · have h2 : 2 ≤ c.length := by omega
      have hk : (keptClusters (c :: rest)).length = (keptClusters rest).length + 1 := by
        simp [keptClusters, List.filter_cons, h2]
      have hnext : (recClusterStep H og acc c).next.length ≤ acc.next.length + 1 := by
        unfold recClusterStep
        rw [if_neg h]
        cases hg : lookupKey og (keyFor c) <;> simp [hg, setKey_length]
      rw [List.foldl_cons, hk]
      calc (rest.foldl (recClusterStep H og) (recClusterStep H og acc c)).next.length
          ≤ (recClusterStep H og acc c).next.length + (keptClusters rest).length := ih _
        _ ≤ acc.next.length + 1 + (keptClusters rest).length := by omega
        _ = acc.next.length + ((keptClusters rest).length + 1) := by omega

/-- Every entry of the `next` map built by the cluster fold either came from
the accumulator or records a kept cluster: its key is the cluster identity,
its members are the cluster, its anchor is the picked anchor. -/
lemma rec_foldl_next_mem (H : ℚ) (og : List (List ℕ × ParticleGroup)) :
    ∀ (cs : List (List FireMetaBallParticle)) (acc : RecAcc)
      (e : List ℕ × ParticleGroup), e ∈ (cs.foldl (recClusterStep H og) acc).next →
      e ∈ acc.next ∨ ∃ comp ∈ cs, 2 ≤ comp.length ∧ e.1 = keyFor comp ∧
        e.2.particles = comp ∧ e.2.anchor = pickAnchor H comp := by
  intro cs
  induction cs with
  | nil => intro acc e he; exact Or.inl he
  | cons c rest ih =>
    intro acc e he
    rcases ih _ e he with h1 | ⟨comp, hcomp, hlen, hkey, hparts, hanch⟩
    · by_cases h : c.length ≤ 1
      · have hstep : recClusterStep H og acc c = acc := by
          unfold recClusterStep; rw [if_pos h]
        rw [hstep] at h1
        exact Or.inl h1
      · have h2 : 2 ≤ c.length := by omega
        cases hg : lookupKey og (keyFor c) with
        | some grp =>
          simp only [recClusterStep, if_neg h, hg] at h1
          rcases mem_setKey h1 with he2 | he2
          · subst he2
            exact Or.inr ⟨c, List.mem_cons_self _ _, h2, rfl, rfl, rfl⟩
          · exact Or.inl he2
        | none =>
          simp only [recClusterStep, if_neg h, hg] at h1
          rcases mem_setKey h1 with he2 | he2
          · subst he2
            exact Or.inr ⟨c, List.mem_cons_self _ _, h2, rfl, rfl, rfl⟩
          · exact Or.inl he2
    · exact Or.inr ⟨comp, List.mem_cons.2 (Or.inr hcomp), hlen, hkey, hparts, hanch⟩

/-! ### Projections of the pipeline stages -/

/-- The particle list after `reconcileVisuals`: flags cleared, then members
of kept clusters marked. -/
lemma reconcile_parts_eq (st : FireMetaBallSystem) (clusters : List (List FireMetaBallParticle)) :
    (reconcileVisuals st clusters).particles =
      markMerged (keptIds clusters) (st.particles.map fun p => { p with merged := false }) :=
  rec_foldl_parts st.emitterHeight st.groups clusters _

/-- The groups map after `reconcileVisuals` has at most one entry per kept
cluster. -/
lemma reconcile_groups_length (st : FireMetaBallSystem)
    (clusters : List (List FireMetaBallParticle)) :
    (reconcileVisuals st clusters).groups.length ≤ (keptClusters clusters).length := by
  have h := rec_foldl_next_length st.emitterHeight st.groups clusters
    { next := [], parts := st.particles.map fun p => { p with merged := false },
      singles := st.singleSprites, createdHids := [], nextHid := st.nextHid }
  simpa using h

/-- Every group tracked after `reconcileVisuals` records a kept cluster. -/
lemma reconcile_groups_mem (st : FireMetaBallSystem)
    (clusters : List (List FireMetaBallParticle)) (e : List ℕ × ParticleGroup)
    (he : e ∈ (reconcileVisuals st clusters).groups) :
    ∃ comp ∈ clusters, 2 ≤ comp.length ∧ e.1 = keyFor comp ∧
      e.2.particles = comp ∧ e.2.anchor = pickAnchor st.emitterHeight comp := by
  have h := rec_foldl_next_mem st.emitterHeight st.groups clusters
    { next := [], parts := st.particles.map fun p => { p with merged := false },
      singles := st.singleSprites, createdHids := [], nextHid := st.nextHid } e he
  rcases h with h1 | h1
  · exact absurd h1 (List.not_mem_nil e)
  · exact h1

/-- Reconciliation via `reconcileVisuals` only rewrites particles, single sprites, groups and
the allocation counter; configuration, timer and id counter survive. -/
lemma reconcile_frame (st : FireMetaBallSystem) (clusters : List (List FireMetaBallParticle)) :
    (reconcileVisuals st clusters).maxSprites = st.maxSprites ∧
    (reconcileVisuals st clusters).emitterHeight = st.emitterHeight ∧
    (reconcileVisuals st clusters).baseMergeDistance = st.baseMergeDistance ∧
    (reconcileVisuals st clusters).spawnTimer = st.spawnTimer ∧
    (reconcileVisuals st clusters).spawnInterval = st.spawnInterval ∧
    (reconcileVisuals st clusters).nextId = st.nextId :=
  ⟨rfl, rfl, rfl, rfl, rfl, rfl⟩

/-- Case analysis of `maybeSpawn`: either the particle list and groups are
unchanged and the id counter kept, or the visual count was under budget and
exactly one fresh active unmerged particle with id `nextId` was appended. -/
lemma maybeSpawn_cases (st : FireMetaBallSystem) (o : Oracle) :
    ((maybeSpawn st o).particles = st.particles ∧ (maybeSpawn st o).groups = st.groups ∧
     (maybeSpawn st o).nextId = st.nextId) ∨
    (getVisualSpriteCount st < st.maxSprites ∧
     ∃ p : FireMetaBallParticle, p.active = true ∧ p.merged = false ∧ p.id = st.nextId ∧
       (maybeSpawn st o).particles = st.particles ++ [p] ∧
       (maybeSpawn st o).groups = st.groups ∧
       (maybeSpawn st o).nextId = st.nextId + 1) := by
  unfold maybeSpawn
  by_cases h1 : st.spawnTimer < st.spawnInterval
  · rw [if_pos h1]
    exact Or.inl ⟨rfl, rfl, rfl⟩
  rw [if_neg h1]
  dsimp only
  by_cases h2 : getVisualSpriteCount st < st.maxSprites
  · rw [if_pos h2]
    refine Or.inr ⟨h2, ?_⟩
    unfold spawnOne
    exact ⟨_, rfl, rfl, rfl, rfl, rfl, rfl⟩
  · rw [if_neg h2]
    exact Or.inl ⟨rfl, rfl, rfl⟩

/-- Spawning via `maybeSpawn` keeps the configuration fields. -/
lemma maybeSpawn_frame (st : FireMetaBallSystem) (o : Oracle) :
    (maybeSpawn st o).maxSprites = st.maxSprites ∧
    (maybeSpawn st o).emitterHeight = st.emitterHeight := by
  unfold maybeSpawn spawnOne
  by_cases h1 : st.spawnTimer < st.spawnInterval
  · rw [if_pos h1]; exact ⟨rfl, rfl⟩
  · rw [if_neg h1]
    dsimp only
    by_cases h2 : getVisualSpriteCount st < st.maxSprites
    · rw [if_pos h2]; exact ⟨rfl, rfl⟩
    · rw [if_neg h2]; exact ⟨rfl, rfl⟩

/-- When every particle is active, the visual sprite count is particle count
plus group count. -/
lemma getVisualSpriteCount_eq (st : FireMetaBallSystem)
    (h : ∀ p ∈ st.particles, p.active = true) :
    getVisualSpriteCount st = st.particles.length + st.groups.length := by
  unfold getVisualSpriteCount
  have : st.particles.filter (·.active) = st.particles :=
    List.filter_eq_self.2 (fun p hp => h p hp)
  rw [this]

/-- The visible draw-primitive count is bounded by the number of active
unmerged particles plus the number of tracked groups. -/
lemma visibleCount_le (st : FireMetaBallSystem) :
    visibleCount st ≤
      (st.particles.filter fun p => p.active && !p.merged).length + st.groups.length := by
  unfold visibleCount
  refine Nat.add_le_add ?_ ?_
  · refine List.Sublist.length_le ?_
    refine List.monotone_filter_right st.particles ?_
    intro p hp
    simp only [Bool.and_eq_true] at hp ⊢
    exact hp.1
  · exact List.length_filter_le _ _

/-- Counting the active unmerged particles after clearing and re-marking:
exactly the particles whose id is outside the marked set remain, provided all
particles are active. -/
lemma marked_unmerged_count (K : List ℕ) (P2 : List FireMetaBallParticle)
    (hact : ∀ p ∈ P2, p.active = true) :
    ((markMerged K (P2.map fun p => { p with merged := false })).filter
        (fun p => p.active && !p.merged)).length
      = (P2.filter fun p => !(decide (p.id ∈ K))).length := by
  unfold markMerged
  rw [List.map_map]
  rw [List.filter_map]
  rw [List.length_map]
  refine congrArg List.length (List.filter_congr ?_)
  intro p hp
  by_cases h : p.id ∈ K <;> simp [Function.comp, h, hact p hp]

/-- The budget-escalation clustering inherits the partition structure: its
flatten is a permutation of the (all-active) input, and its clusters are
non-empty. -/
lemma clusterToFitBudget_spec (H : ℚ) (maxS : ℕ) (base : ℚ)
    (ps : List FireMetaBallParticle) (hact : ∀ p ∈ ps, p.active = true)
    (hn : (ps.map (·.id)).Nodup) :
    (clusterToFitBudget H maxS base ps).flatten.Perm ps ∧
    (∀ c ∈ clusterToFitBudget H maxS base ps, c ≠ []) := by
  unfold clusterToFitBudget
  have hfilter : ps.filter (·.active) = ps :=
    List.filter_eq_self.2 (fun p hp => hact p hp)
  rw [hfilter]
  by_cases hlen : ps.length = 0
  · rw [if_pos hlen]
    have : ps = [] := List.length_eq_zero.1 hlen
    subst this
    exact ⟨List.Perm.refl _, fun c hc => absurd hc (List.not_mem_nil c)⟩
  · rw [if_neg hlen]
    obtain ⟨m, _, heq⟩ := fitLoop_result H base maxS ps multipliers [] (by
      simp [multipliers])
    rw [heq]
    obtain ⟨h1, h2, _⟩ := clusterParticles_spec H (base * m) ps hn
    exact ⟨h1, h2⟩

/-- The step `groupSpriteStep` always appends exactly one entry and, when the group's
anchor is alive and some member survives, takes neither the dead-anchor
branch nor the destruction branch: the flags pass through, the key is kept
and members, anchor and attachment are preserved. -/
lemma groupSpriteStep_clean (H : ℚ) (acc : List (List ℕ × ParticleGroup) × Bool × Bool)
    (e : List ℕ × ParticleGroup) (hanchor : e.2.anchor.active = true)
    (hsurv : e.2.particles.filter (·.active) ≠ []) :
    (groupSpriteStep H acc e).2 = acc.2 ∧
    ∃ g1 : ParticleGroup, (groupSpriteStep H acc e).1 = acc.1 ++ [(e.1, g1)] ∧
      g1.particles = e.2.particles ∧ g1.anchor = e.2.anchor ∧
      g1.sprite.attached = e.2.sprite.attached := by
  unfold groupSpriteStep
  have h1 : (!e.2.anchor.active) = false := by rw [hanchor]; rfl
  have h2 : ¬((e.2.particles.filter (·.active)).length = 0) := by
    intro h
    exact hsurv (List.length_eq_zero.1 h)
  dsimp only
  rw [h1]
  simp only [Bool.false_eq_true, if_false, if_neg h2, Bool.or_false]
  exact ⟨trivial, _, rfl, rfl, rfl, rfl⟩

/-- The step `groupSpriteStep` grows the output list by exactly one entry. -/
lemma groupSpriteStep_length (H : ℚ) (acc : List (List ℕ × ParticleGroup) × Bool × Bool)
    (e : List ℕ × ParticleGroup) :
    (groupSpriteStep H acc e).1.length = acc.1.length + 1 := by
  unfold groupSpriteStep
  dsimp only
  split <;> simp

/-- The group-sprite pass preserves the number of tracked groups. -/
lemma updateGroupSpritesX_length (H : ℚ) :
    ∀ (gs : List (List ℕ × ParticleGroup)) (acc : List (List ℕ × ParticleGroup) × Bool × Bool),
      (gs.foldl (groupSpriteStep H) acc).1.length = acc.1.length + gs.length := by
  intro gs
  induction gs with
  | nil => intro acc; simp
  | cons e rest ih =>
    intro acc
    rw [List.foldl_cons, ih, groupSpriteStep_length, List.length_cons]
    omega

/-- When every tracked group has a live anchor and a surviving member, the
group-sprite pass reports no dead-anchor reselection and no destruction, and
every output group keeps the members, anchor and attachment of an input
group. -/
lemma updateGroupSpritesX_clean (H : ℚ) (gs : List (List ℕ × ParticleGroup))
    (h : ∀ e ∈ gs, e.2.anchor.active = true ∧ e.2.particles.filter (·.active) ≠ []) :
    (updateGroupSpritesX H gs).2 = (false, false) ∧
    (∀ e ∈ (updateGroupSpritesX H gs).1, ∃ e0 ∈ gs,
      e.1 = e0.1 ∧ e.2.particles = e0.2.particles ∧ e.2.anchor = e0.2.anchor ∧
      e.2.sprite.attached = e0.2.sprite.attached) := by
  unfold updateGroupSpritesX
  have hmain := List.foldlRecOn gs (groupSpriteStep H)
    (([], false, false) : List (List ℕ × ParticleGroup) × Bool × Bool)
    (motive := fun acc => acc.2 = (false, false) ∧ ∀ e ∈ acc.1, ∃ e0 ∈ gs,
      e.1 = e0.1 ∧ e.2.particles = e0.2.particles ∧ e.2.anchor = e0.2.anchor ∧
      e.2.sprite.attached = e0.2.sprite.attached)
    ⟨rfl, fun e he => absurd he (List.not_mem_nil e)⟩
    (fun acc hacc e he => by
      obtain ⟨hstep2, g1, hstep1, hg1p, hg1a, hg1s⟩ :=
        groupSpriteStep_clean H acc e (h e he).1 (h e he).2
      refine ⟨by rw [hstep2]; exact hacc.1, ?_⟩
      intro e2 he2
      rw [hstep1] at he2
      rcases List.mem_append.1 he2 with h1 | h1
      · exact hacc.2 e2 h1
      · rw [List.mem_singleton.1 h1]
        exact ⟨e, he, rfl, hg1p, hg1a, hg1s⟩)
  exact hmain

/-! ### The per-update preservation lemma -/

/-- A fresh system satisfies the invariant. -/
lemma initSystem_inv (opts : FireMetaBallOptions) : SysInv (initSystem opts) := by
  refine ⟨?_, ?_, ?_, ?_⟩ <;> simp [initSystem]

/-- The heart of the budget guarantee: one `update` preserves the invariant
and the configuration, keeps the visible primitive count within the budget,
never takes the dead branches of `updateGroupSprites`, and leaves only
groups of active particles. -/
lemma update_step (st : FireMetaBallSystem) (dt : ℚ) (o : Oracle) (hinv : SysInv st) :
    SysInv (update st dt o) ∧
    (update st dt o).maxSprites = st.maxSprites ∧
    visibleCount (update st dt o) ≤ st.maxSprites ∧
    (updateX st dt o).2 = (false, false) ∧
    (∀ e ∈ (update st dt o).groups, ∀ p ∈ e.2.particles, p.active = true) := by
  obtain ⟨hact, hnodup, hbound, hcount⟩ := hinv
  set st1 : FireMetaBallSystem :=
    { st with spawnTimer := st.spawnTimer + dt,
              particles := updateEach dt o.j1 o.j2 0 st.particles } with hst1
  set st2 : FireMetaBallSystem := cullDeadParticles st1 with hst2
  set clusters : List (List FireMetaBallParticle) :=
    clusterToFitBudget st2.emitterHeight st2.maxSprites st2.baseMergeDistance st2.particles
    with hclusters
  set st3 : FireMetaBallSystem := reconcileVisuals st2 clusters with hst3
  set st4 : FireMetaBallSystem := maybeSpawn st3 o with hst4
  set st5 : FireMetaBallSystem := updateSingleSprites st4 with hst5
  set r := updateGroupSpritesX st5.emitterHeight st5.groups with hr
  have hupd : update st dt o = { st5 with groups := r.1 } := rfl
  have hupdX : (updateX st dt o).2 = r.2 := rfl
  -- stage 1: integration keeps the id sequence
  have h1ids : st1.particles.map (·.id) = st.particles.map (·.id) :=
    updateEach_map_id dt o.j1 o.j2 0 st.particles
  -- stage 2: cull keeps only active particles
  have h2particles : st2.particles = st1.particles.filter (·.active) := rfl
  have h2act : ∀ p ∈ st2.particles, p.active = true := by
    intro p hp
    rw [h2particles] at hp
    exact (List.mem_filter.1 hp).2
  have h2ids_sub : (st2.particles.map (·.id)).Sublist (st.particles.map (·.id)) := by
    rw [h2particles, ← h1ids]
    exact (List.filter_sublist _).map _
  have h2nodup : (st2.particles.map (·.id)).Nodup := h2ids_sub.nodup hnodup
  have h2len : st2.particles.length ≤ st.particles.length := by
    have := h2ids_sub.length_le
    simpa using this
  have h2bound : ∀ p ∈ st2.particles, p.id < st.nextId := by
    intro p hp
    have hpid : p.id ∈ st.particles.map (·.id) :=
      h2ids_sub.subset (List.mem_map.2 ⟨p, hp, rfl⟩)
    obtain ⟨q, hq, hqid⟩ := List.mem_map.1 hpid
    exact hqid ▸ hbound q hq
  -- clusters partition the culled particles
  obtain ⟨hperm, hne⟩ := clusterToFitBudget_spec st2.emitterHeight st2.maxSprites
    st2.baseMergeDistance st2.particles h2act h2nodup
  rw [← hclusters] at hperm hne
  -- the marked id set
  set K : List ℕ := keptIds clusters with hK
  have hflatten_sub : ((keptClusters clusters).flatten).Sublist clusters.flatten :=
    flatten_filter_sublist _ clusters
  have hflatten_idnodup : (clusters.flatten.map (·.id)).Nodup :=
    (hperm.map (·.id)).nodup_iff.2 h2nodup
  have hKnodup : K.Nodup := (hflatten_sub.map _).nodup hflatten_idnodup
  have hKsub : K ⊆ st2.particles.map (·.id) := by
    intro x hx
    have hx2 : x ∈ clusters.flatten.map (·.id) := (hflatten_sub.map _).subset hx
    exact (hperm.map (·.id)).mem_iff.1 hx2
  have hKge : (keptClusters clusters).length ≤ K.length := by
    have hne2 : ∀ c ∈ keptClusters clusters, c ≠ [] := by
      intro c hc
      exact hne c (List.mem_filter.1 hc).1
    have h := length_le_flatten_length hne2
    calc (keptClusters clusters).length ≤ (keptClusters clusters).flatten.length := h
      _ = K.length := by rw [hK, keptIds, List.length_map]
  -- stage 3: reconciliation
  have h3particles : st3.particles =
      markMerged K (st2.particles.map fun p => { p with merged := false }) :=
    reconcile_parts_eq st2 clusters
  have h3glen : st3.groups.length ≤ (keptClusters clusters).length :=
    reconcile_groups_length st2 clusters
  have h3act : ∀ p ∈ st3.particles, p.active = true := by
    rw [h3particles]
    refine markMerged_active _ _ ?_
    intro p hp
    obtain ⟨q, hq, rfl⟩ := List.mem_map.1 hp
    exact h2act q hq
  have h3ids : st3.particles.map (·.id) = st2.particles.map (·.id) := by
    rw [h3particles, markMerged_map_id, List.map_map]
    rfl
  have h3len : st3.particles.length = st2.particles.length := by
    have h := congrArg List.length h3ids
    simpa using h
  have h3nodup : (st3.particles.map (·.id)).Nodup := by rw [h3ids]; exact h2nodup
  have h3bound : ∀ p ∈ st3.particles, p.id < st.nextId := by
    intro p hp
    have hpid : p.id ∈ st2.particles.map (·.id) := by
      rw [← h3ids]
      exact List.mem_map.2 ⟨p, hp, rfl⟩
    obtain ⟨q, hq, hqid⟩ := List.mem_map.1 hpid
    exact hqid ▸ h2bound q hq
  have h3nextId : st3.nextId = st.nextId := (reconcile_frame st2 clusters).2.2.2.2.2
  have h3max : st3.maxSprites = st.maxSprites := (reconcile_frame st2 clusters).1
  -- the unmerged active count after reconciliation
  have hU : (st3.particles.filter fun p => p.active && !p.merged).length +
      K.length = st2.particles.length := by
    rw [h3particles, marked_unmerged_count K st2.particles h2act]
    have hsplit := length_filter_split (fun p => decide (p.id ∈ K)) st2.particles
    have hcountK := filter_mem_length hKsub hKnodup h2nodup
    omega
  -- the group invariants after reconciliation
  have h3groups : ∀ e ∈ st3.groups, (∀ p ∈ e.2.particles, p.active = true) ∧
      e.2.anchor.active = true ∧ e.2.particles.filter (·.active) ≠ [] := by
    intro e he
    obtain ⟨comp, hcomp, hlen2, _, hparts, hanch⟩ := reconcile_groups_mem st2 clusters e he
    have hcompact : ∀ p ∈ comp, p.active = true := by
      intro p hp
      have : p ∈ clusters.flatten := List.mem_flatten.2 ⟨comp, hcomp, hp⟩
      exact h2act p (hperm.subset this)
    have hcompne : comp ≠ [] := by
      intro h
      rw [h] at hlen2
      simp at hlen2
    have hanchact : e.2.anchor.active = true := by
      rw [hanch]
      exact hcompact _ (pickAnchor_mem st2.emitterHeight hcompne)
    refine ⟨by rw [hparts]; exact hcompact, hanchact, ?_⟩
    rw [hparts]
    rw [List.filter_eq_self.2 (fun p hp => hcompact p hp)]
    exact hcompne
  -- stage 4: maybe spawn
  have h4max : st4.maxSprites = st.maxSprites := by
    rw [hst4]
    rw [(maybeSpawn_frame st3 o).1, h3max]
  have h4groups : st4.groups = st3.groups := by
    rcases maybeSpawn_cases st3 o with ⟨_, hg, _⟩ | ⟨_, _, _, _, _, _, hg, _⟩ <;>
      (rw [hst4]; exact hg)
  have hgvc : getVisualSpriteCount st3 = st2.particles.length + st3.groups.length := by
    rw [getVisualSpriteCount_eq st3 h3act, h3len]
  -- stage 5 and the group pass
  have h5particles : st5.particles = st4.particles := rfl
  have h5groups : st5.groups = st4.groups := rfl
  have h5max : st5.maxSprites = st4.maxSprites := rfl
  have h5nextId : st5.nextId = st4.nextId := rfl
  have hclean := updateGroupSpritesX_clean st5.emitterHeight st5.groups (by
    intro e he
    rw [h5groups, h4groups] at he
    exact ⟨(h3groups e he).2.1, (h3groups e he).2.2⟩)
  have hrlen : r.1.length = st5.groups.length := by
    rw [hr]
    unfold updateGroupSpritesX
    rw [updateGroupSpritesX_length]
    simp
  -- assemble: case split on whether a particle was spawned
  rcases maybeSpawn_cases st3 o with ⟨hp4, hg4, hid4⟩ | hspawn
  · -- no spawn
    have h4particles : st4.particles = st3.particles := by rw [hst4]; exact hp4
    have h4nextId : st4.nextId = st3.nextId := by rw [hst4]; exact hid4
    refine ⟨⟨?_, ?_, ?_, ?_⟩, ?_, ?_, ?_, ?_⟩
    · intro p hp
      rw [hupd] at hp
      exact h3act p (by rw [← h4particles, ← h5particles]; exact hp)
    · have : (update st dt o).particles = st3.particles := by
        rw [hupd]
        show st5.particles = st3.particles
        rw [h5particles, h4particles]
      rw [this]
      exact h3nodup
    · intro p hp
      have hp3 : p ∈ st3.particles := by
        rw [hupd] at hp
        rw [← h4particles, ← h5particles]
        exact hp
      have : (update st dt o).nextId = st.nextId := by
        rw [hupd]
        show st5.nextId = st.nextId
        rw [h5nextId, h4nextId, h3nextId]
      rw [this]
      exact h3bound p hp3
    · have he : (update st dt o).particles = st3.particles := by
        rw [hupd]
        show st5.particles = st3.particles
        rw [h5particles, h4particles]
      have hm : (update st dt o).maxSprites = st.maxSprites := by
        rw [hupd]
        show st5.maxSprites = st.maxSprites
        rw [h5max, h4max]
      rw [he, hm, h3len]
      exact h2len.trans hcount
    · rw [hupd]
      show st5.maxSprites = st.maxSprites
      rw [h5max, h4max]
    · -- the visible bound
      have hb := visibleCount_le (update st dt o)
      have he1 : (update st dt o).particles = st3.particles := by
        rw [hupd]
        show st5.particles = st3.particles
        rw [h5particles, h4particles]
      have he2 : (update st dt o).groups.length = st3.groups.length := by
        rw [hupd]
        show r.1.length = st3.groups.length
        rw [hrlen, h5groups, h4groups]
      rw [he1, he2] at hb
      have hg3 : st3.groups.length ≤ K.length := h3glen.trans hKge
      have hp2 : st2.particles.length ≤ st.maxSprites := h2len.trans hcount
      omega
    · rw [hupdX]
      exact hclean.1
    · intro e he
      rw [hupd] at he
      obtain ⟨e0, he0, _, hpeq, _, _⟩ := hclean.2 e he
      rw [hpeq]
      rw [h5groups, h4groups] at he0
      exact (h3groups e0 he0).1
  · -- spawn
    obtain ⟨hgate, p, hpact, hpmerg, hpid, hp4, hg4, hid4⟩ := hspawn
    have h4particles : st4.particles = st3.particles ++ [p] := by rw [hst4]; exact hp4
    have h4nextId : st4.nextId = st3.nextId + 1 := by rw [hst4]; exact hid4
    have hplt : st2.particles.length < st.maxSprites := by
      rw [hgvc] at hgate
      rw [h3max] at hgate
      omega
    refine ⟨⟨?_, ?_, ?_, ?_⟩, ?_, ?_, ?_, ?_⟩
    · intro q hq
      rw [hupd] at hq
      have hq4 : q ∈ st4.particles := hq
      rw [h4particles] at hq4
      rcases List.mem_append.1 hq4 with h1 | h1
      · exact h3act q h1
      · rw [List.mem_singleton.1 h1]
        exact hpact
    · have he : (update st dt o).particles = st3.particles ++ [p] := by
        rw [hupd]
        show st5.particles = st3.particles ++ [p]
        rw [h5particles, h4particles]
      rw [he, List.map_append]
      rw [List.nodup_append]
      refine ⟨h3nodup, by simp, ?_⟩
      intro x hx
      obtain ⟨q, hq, rfl⟩ := List.mem_map.1 hx
      simp only [List.map_cons, List.map_nil, List.mem_singleton]
      intro hxp
      have := h3bound q hq
      rw [hxp, hpid, h3nextId] at this
      omega
    · intro q hq
      have he : (update st dt o).particles = st3.particles ++ [p] := by
        rw [hupd]
        show st5.particles = st3.particles ++ [p]
        rw [h5particles, h4particles]
      have hn : (update st dt o).nextId = st.nextId + 1 := by
        rw [hupd]
        show st5.nextId = st.nextId + 1
        rw [h5nextId, h4nextId, h3nextId]
      rw [he] at hq
      rw [hn]
      rcases List.mem_append.1 hq with h1 | h1
      · exact Nat.lt_succ_of_lt (h3bound q h1)
      · rw [List.mem_singleton.1 h1, hpid, h3nextId]
        omega
    · have he : (update st dt o).particles = st3.particles ++ [p] := by
        rw [hupd]
        show st5.particles = st3.particles ++ [p]
        rw [h5particles, h4particles]
      have hm : (update st dt o).maxSprites = st.maxSprites := by
        rw [hupd]
        show st5.maxSprites = st.maxSprites
        rw [h5max, h4max]
      rw [he, hm, List.length_append, List.length_singleton, h3len]
      omega
    · rw [hupd]
      show st5.maxSprites = st.maxSprites
      rw [h5max, h4max]
    · have hb := visibleCount_le (update st dt o)
      have he1 : (update st dt o).particles = st3.particles ++ [p] := by
        rw [hupd]
        show st5.particles = st3.particles ++ [p]
        rw [h5particles, h4particles]
      have he2 : (update st dt o).groups.length = st3.groups.length := by
        rw [hupd]
        show r.1.length = st3.groups.length
        rw [hrlen, h5groups, h4groups]
      rw [he1, he2, List.filter_append] at hb
      have hone : (([p].filter fun q => q.active && !q.merged)).length ≤ 1 := by
        have := List.length_filter_le (fun q => q.active && !q.merged) [p]
        simpa using this
      rw [List.length_append] at hb
      have hg3 : st3.groups.length ≤ K.length := h3glen.trans hKge
      rw [hgvc, h3max] at hgate
      omega
    · rw [hupdX]
      exact hclean.1
    · intro e he
      rw [hupd] at he
      obtain ⟨e0, he0, _, hpeq, _, _⟩ := hclean.2 e he
      rw [hpeq]
      rw [h5groups, h4groups] at he0
      exact (h3groups e0 he0).1

/-- Reachability carries the invariant, the configured budget and the
visible-primitive bound. -/
lemma reachable_inv (opts : FireMetaBallOptions) :
    ∀ st, Reachable opts st →
      SysInv st ∧ st.maxSprites = opts.max ∧ visibleCount st ≤ opts.max := by
  intro st h
  induction h with
  | init =>
    refine ⟨initSystem_inv opts, rfl, ?_⟩
    simp [visibleCount, initSystem]
  | step dt o hre ih =>
    obtain ⟨hinv, hmax, _⟩ := ih
    obtain ⟨h1, h2, h3, _, _⟩ := update_step _ dt o hinv
    rw [hmax] at h2 h3
    exact ⟨h1, h2, h3⟩

/-! ### Identity stability of the reconciler -/

/-- Looking up the key just set finds the new binding. -/
lemma lookup_setKey_self (k : List ℕ) (g : ParticleGroup) :
    ∀ l : List (List ℕ × ParticleGroup), lookupKey (setKey k g l) k = some g := by
  intro l
  induction l with
  | nil => simp [setKey, lookupKey]
  | cons e rest ih =>
    obtain ⟨k1, g1⟩ := e
    by_cases h : k1 = k
    · simp [setKey, h, lookupKey]
    · simp only [setKey, if_neg h]
      simp only [lookupKey, List.find?]
      rw [show (decide (k1 = k)) = false from by simp [h]]
      exact ih

/-- Setting one key leaves other keys untouched. -/
lemma lookup_setKey_other {k k2 : List ℕ} (hne : k2 ≠ k) (g : ParticleGroup) :
    ∀ l : List (List ℕ × ParticleGroup), lookupKey (setKey k g l) k2 = lookupKey l k2 := by
  intro l
  induction l with
  | nil =>
    simp only [setKey, lookupKey, List.find?]
    rw [decide_eq_false (fun he => hne he.symm)]
  | cons e rest ih =>
    obtain ⟨k1, g1⟩ := e
    by_cases h : k1 = k
    · subst h
      simp only [setKey, if_pos rfl]
      simp only [lookupKey, List.find?]
      rw [decide_eq_false (fun he => hne he.symm)]
    · simp only [setKey, if_neg h]
      simp only [lookupKey, List.find?]
      cases hd : decide (k1 = k2) with
      | true => rfl
      | false => exact ih

/-- The cluster fold only appends created handles and advances the
allocation counter. -/
lemma rec_foldl_mono (H : ℚ) (og : List (List ℕ × ParticleGroup)) :
    ∀ (cs : List (List FireMetaBallParticle)) (acc : RecAcc),
      acc.nextHid ≤ (cs.foldl (recClusterStep H og) acc).nextHid ∧
      ∀ x ∈ acc.createdHids, x ∈ (cs.foldl (recClusterStep H og) acc).createdHids := by
  intro cs
  induction cs with
  | nil => intro acc; exact ⟨Nat.le_refl _, fun x hx => hx⟩
  | cons c rest ih =>
    intro acc
    have hstep : acc.nextHid ≤ (recClusterStep H og acc c).nextHid ∧
        ∀ x ∈ acc.createdHids, x ∈ (recClusterStep H og acc c).createdHids := by
      by_cases h : c.length ≤ 1
      · simp only [recClusterStep, if_pos h]
        exact ⟨Nat.le_refl _, fun x hx => hx⟩
      · cases hg : lookupKey og (keyFor c) with
        | some grp =>
          simp only [recClusterStep, if_neg h, hg]
          exact ⟨Nat.le_refl _, fun x hx => hx⟩
        | none =>
          simp only [recClusterStep, if_neg h, hg]
          refine ⟨Nat.le_succ _, ?_⟩
          intro x hx
          exact List.mem_append.2 (Or.inl hx)
    obtain ⟨ih1, ih2⟩ := ih (recClusterStep H og acc c)
    exact ⟨hstep.1.trans ih1, fun x hx => ih2 x (hstep.2 x hx)⟩

/-- A skipped (singleton) head cluster does not contribute a kept cluster. -/
lemma keptClusters_cons_skip {c : List FireMetaBallParticle}
    {rest : List (List FireMetaBallParticle)} (h : c.length ≤ 1) :
    keptClusters (c :: rest) = keptClusters rest := by
  have h2 : ¬ (2 ≤ c.length) := by omega
  simp [keptClusters, List.filter_cons, h2]

/-- A kept head cluster heads the kept list. -/
lemma keptClusters_cons_keep {c : List FireMetaBallParticle}
    {rest : List (List FireMetaBallParticle)} (h2 : 2 ≤ c.length) :
    keptClusters (c :: rest) = c :: keptClusters rest := by
  simp [keptClusters, List.filter_cons, h2]

/-- Keys outside the kept clusters keep their binding through the cluster
fold. -/
lemma rec_foldl_preserves (H : ℚ) (og : List (List ℕ × ParticleGroup)) :
    ∀ (cs : List (List FireMetaBallParticle)) (acc : RecAcc) (k : List ℕ),
      k ∉ (keptClusters cs).map keyFor →
      lookupKey (cs.foldl (recClusterStep H og) acc).next k = lookupKey acc.next k := by
  intro cs
  induction cs with
  | nil => intro acc k _; rfl
  | cons c rest ih =>
    intro acc k hk
    by_cases h : c.length ≤ 1
    · have hstep : recClusterStep H og acc c = acc := by
        unfold recClusterStep; rw [if_pos h]
      rw [List.foldl_cons, hstep]
      refine ih acc k ?_
      rw [← keptClusters_cons_skip h]
      exact hk
    · have h2 : 2 ≤ c.length := by omega
      rw [keptClusters_cons_keep h2, List.map_cons] at hk
      have hkc : keyFor c ≠ k := fun he => hk (List.mem_cons.2 (Or.inl he.symm))
      have hk2 : k ∉ (keptClusters rest).map keyFor :=
        fun hmem => hk (List.mem_cons.2 (Or.inr hmem))
      rw [List.foldl_cons, ih _ k hk2]
      unfold recClusterStep
      rw [if_neg h]
      cases hg : lookupKey og (keyFor c) with
      | some grp =>
        simp only [hg]
        exact lookup_setKey_other (fun he => hkc he.symm) _ acc.next
      | none =>
        simp only [hg]
        exact lookup_setKey_other (fun he => hkc he.symm) _ acc.next

/-- Binding produced by the cluster fold for the key of a kept cluster
(assuming the kept keys are distinct and the key is not yet bound in the
accumulator): the binding of a previously tracked group is reused with
members and anchor refreshed, otherwise a freshly allocated handle is
recorded and reported as created. -/
lemma rec_foldl_lookup (H : ℚ) (og : List (List ℕ × ParticleGroup)) :
    ∀ (cs : List (List FireMetaBallParticle)) (acc : RecAcc) (k : List ℕ),
      ((keptClusters cs).map keyFor).Nodup →
      containsKey acc.next k = false →
      k ∈ (keptClusters cs).map keyFor →
      (∃ g0, lookupKey og k = some g0 ∧ ∃ comp, comp ∈ cs ∧ 2 ≤ comp.length ∧
        keyFor comp = k ∧
        lookupKey (cs.foldl (recClusterStep H og) acc).next k =
          some { g0 with particles := comp, anchor := pickAnchor H comp }) ∨
      (lookupKey og k = none ∧ ∃ g2,
        lookupKey (cs.foldl (recClusterStep H og) acc).next k = some g2 ∧
        acc.nextHid ≤ g2.sprite.hid ∧
        g2.sprite.hid ∈ (cs.foldl (recClusterStep H og) acc).createdHids) := by
  intro cs
  induction cs with
  | nil =>
    intro acc k _ _ hin
    simp [keptClusters] at hin
  | cons c rest ih =>
    intro acc k hnodup hnotin hin
    by_cases h : c.length ≤ 1
    · rw [keptClusters_cons_skip h] at hnodup hin
      have hstep : recClusterStep H og acc c = acc := by
        unfold recClusterStep; rw [if_pos h]
      rw [List.foldl_cons, hstep]
      rcases ih acc k hnodup hnotin hin with h1 | h1
      · obtain ⟨g0, hg0, comp, hcomp, hl, hkk, hres⟩ := h1
        exact Or.inl ⟨g0, hg0, comp, List.mem_cons.2 (Or.inr hcomp), hl, hkk, hres⟩
      · exact Or.inr h1
    · have h2 : 2 ≤ c.length := by omega
      rw [keptClusters_cons_keep h2, List.map_cons] at hnodup hin
      by_cases hkc : keyFor c = k
      · -- the head cluster owns the key; the fold then preserves the binding
        have hrest : k ∉ (keptClusters rest).map keyFor := by
          rw [← hkc]
          exact (List.nodup_cons.1 hnodup).1
        rw [List.foldl_cons]
        rw [rec_foldl_preserves H og rest _ k hrest]
        cases hg : lookupKey og k with
        | some g0 =>
          left
          refine ⟨g0, rfl, c, List.mem_cons_self _ _, h2, hkc, ?_⟩
          simp only [recClusterStep, if_neg h, hkc, hg]
          exact lookup_setKey_self k _ acc.next
        | none =>
          right
          refine ⟨rfl, ?_⟩
          obtain ⟨hmono1, hmono2⟩ := rec_foldl_mono H og rest (recClusterStep H og acc c)
          refine ⟨{ key := k, particles := c,
                    sprite := mkSprite acc.nextHid (pickAnchor H c).x (pickAnchor H c).y,
                    anchor := pickAnchor H c }, ?_, ?_, ?_⟩
          · simp only [recClusterStep, if_neg h, hkc, hg]
            exact lookup_setKey_self k _ acc.next
          · exact Nat.le_refl _
          · refine hmono2 _ ?_
            simp only [recClusterStep, if_neg h, hkc, hg]
            exact List.mem_append.2 (Or.inr (List.mem_singleton.2 rfl))
      · -- the key belongs to a later cluster
        have hin2 : k ∈ (keptClusters rest).map keyFor := by
          rcases List.mem_cons.1 hin with h1 | h1
          · exact absurd h1.symm hkc
          · exact h1
        have hnotin2 : containsKey (recClusterStep H og acc c).next k = false := by
          have hpres : lookupKey (recClusterStep H og acc c).next k = lookupKey acc.next k := by
            cases hg : lookupKey og (keyFor c) with
            | some grp =>
              simp only [recClusterStep, if_neg h, hg]
              exact lookup_setKey_other (fun he => hkc he.symm) _ acc.next
            | none =>
              simp only [recClusterStep, if_neg h, hg]
              exact lookup_setKey_other (fun he => hkc he.symm) _ acc.next
          unfold containsKey at hnotin ⊢
          rw [hpres]
          exact hnotin
        rw [List.foldl_cons]
        rcases ih (recClusterStep H og acc c) k (List.nodup_cons.1 hnodup).2 hnotin2 hin2
          with h1 | h1
        · obtain ⟨g0, hg0, comp, hcomp, hl, hkk, hres⟩ := h1
          exact Or.inl ⟨g0, hg0, comp, List.mem_cons.2 (Or.inr hcomp), hl, hkk, hres⟩
        · obtain ⟨hg0, g2, hres, hhid, hcre⟩ := h1
          have hmono : acc.nextHid ≤ (recClusterStep H og acc c).nextHid := by
            by_cases hh : c.length ≤ 1
            · simp only [recClusterStep, if_pos hh]; exact Nat.le_refl _
            · cases hg : lookupKey og (keyFor c) with
              | some grp => simp only [recClusterStep, if_neg hh, hg]; exact Nat.le_refl _
              | none => simp only [recClusterStep, if_neg hh, hg]; exact Nat.le_succ _
          exact Or.inr ⟨hg0, g2, hres, hmono.trans hhid, hcre⟩

/-- A successful lookup exhibits a map entry with that key. -/
lemma lookupKey_mem {l : List (List ℕ × ParticleGroup)} {k : List ℕ} {g : ParticleGroup}
    (h : lookupKey l k = some g) : (k, g) ∈ l := by
  unfold lookupKey at h
  cases hf : l.find? (fun e => decide (e.1 = k)) with
  | none => rw [hf] at h; simp at h
  | some e =>
    rw [hf] at h
    have h2 : e.2 = g := by simpa using h
    have hmem := List.mem_of_find?_eq_some hf
    have hpred := List.find?_some hf
    simp only [decide_eq_true_eq] at hpred
    have he : e = (k, g) := by
      obtain ⟨e1, e2⟩ := e
      simp only at hpred h2
      rw [hpred, h2]
    rw [← he]
    exact hmem

/-- A true `containsKey` exhibits an entry with that key. -/
lemma containsKey_mem {l : List (List ℕ × ParticleGroup)} {k : List ℕ}
    (h : containsKey l k = true) : ∃ e ∈ l, e.1 = k := by
  unfold containsKey lookupKey at h
  cases hf : l.find? (fun e => decide (e.1 = k)) with
  | none => rw [hf] at h; simp at h
  | some e =>
    have hmem := List.mem_of_find?_eq_some hf
    have hpred := List.find?_some hf
    simp only [decide_eq_true_eq] at hpred
    exact ⟨e, hmem, hpred⟩

/-- A true lookup makes `containsKey` true. -/
lemma containsKey_of_lookup {l : List (List ℕ × ParticleGroup)} {k : List ℕ}
    {g : ParticleGroup} (h : lookupKey l k = some g) : containsKey l k = true := by
  unfold containsKey
  rw [h]
  rfl

/-- Handles created by the cluster fold sit at or above the starting
allocation counter. -/
lemma rec_foldl_created_ge (H : ℚ) (og : List (List ℕ × ParticleGroup)) (c0 : ℕ) :
    ∀ (cs : List (List FireMetaBallParticle)) (acc : RecAcc),
      (∀ x ∈ acc.createdHids, c0 ≤ x) → c0 ≤ acc.nextHid →
      ∀ x ∈ (cs.foldl (recClusterStep H og) acc).createdHids, c0 ≤ x := by
  intro cs
  induction cs with
  | nil => intro acc hc _ x hx; exact hc x hx
  | cons c rest ih =>
    intro acc hc hn x hx
    have hstep : (∀ y ∈ (recClusterStep H og acc c).createdHids, c0 ≤ y) ∧
        c0 ≤ (recClusterStep H og acc c).nextHid := by
      by_cases h : c.length ≤ 1
      · simp only [recClusterStep, if_pos h]
        exact ⟨hc, hn⟩
      · cases hg : lookupKey og (keyFor c) with
        | some grp =>
          simp only [recClusterStep, if_neg h, hg]
          exact ⟨hc, hn⟩
        | none =>
          simp only [recClusterStep, if_neg h, hg]
          refine ⟨?_, Nat.le_succ_of_le hn⟩
          intro y hy
          rcases List.mem_append.1 hy with h1 | h1
          · exact hc y h1
          · rw [List.mem_singleton.1 h1]; exact hn
    exact ih (recClusterStep H og acc c) hstep.1 hstep.2 x hx

/-- Claim C4: across two consecutive frames, a size-≥2 cluster whose exact
member-id set is unchanged reuses the existing group visual handle (same
sprite; its handle is neither destroyed nor created this frame); a tracked
identity absent from this frame's clusters has its handle destroyed; and a
new identity gets a freshly created handle distinct from every previously
tracked one. Hypotheses: the kept clusters have distinct identity keys (the
clusterer produces disjoint clusters) and the tracked handles are distinct
and below the allocation counter (maintained by construction). -/
theorem fireC4_identity_stability
    (st : FireMetaBallSystem) (clusters : List (List FireMetaBallParticle))
    (hkeys : ((keptClusters clusters).map keyFor).Nodup)
    (hhid_nodup : (st.groups.map (fun e => e.2.sprite.hid)).Nodup)
    (hhid_bound : ∀ e ∈ st.groups, e.2.sprite.hid < st.nextHid) :
    (∀ comp ∈ clusters, 2 ≤ comp.length →
      ∀ g, lookupKey st.groups (keyFor comp) = some g →
        (∃ g2, lookupKey (reconcileVisualsX st clusters).1.groups (keyFor comp) = some g2 ∧
          g2.sprite = g.sprite) ∧
        g.sprite.hid ∉ (reconcileVisualsX st clusters).2.2 ∧
        g.sprite.hid ∉ (reconcileVisualsX st clusters).2.1) ∧
    (∀ e ∈ st.groups, e.1 ∉ (keptClusters clusters).map keyFor →
      e.2.sprite.attached = true →
      e.2.sprite.hid ∈ (reconcileVisualsX st clusters).2.2) ∧
    (∀ comp ∈ clusters, 2 ≤ comp.length →
      lookupKey st.groups (keyFor comp) = none →
      ∃ g2, lookupKey (reconcileVisualsX st clusters).1.groups (keyFor comp) = some g2 ∧
        g2.sprite.hid ∈ (reconcileVisualsX st clusters).2.1 ∧
        ∀ e ∈ st.groups, e.2.sprite.hid ≠ g2.sprite.hid) := by
  have hgroups_eq : (reconcileVisualsX st clusters).1.groups =
      (clusters.foldl (recClusterStep st.emitterHeight st.groups)
        { next := [], parts := st.particles.map fun p => { p with merged := false },
          singles := st.singleSprites, createdHids := [], nextHid := st.nextHid }).next := rfl
  have hcreated_eq : (reconcileVisualsX st clusters).2.1 =
      (clusters.foldl (recClusterStep st.emitterHeight st.groups)
        { next := [], parts := st.particles.map fun p => { p with merged := false },
          singles := st.singleSprites, createdHids := [], nextHid := st.nextHid }).createdHids :=
    rfl
  have hnext_keys : ∀ e2 ∈ (reconcileVisualsX st clusters).1.groups,
      e2.1 ∈ (keptClusters clusters).map keyFor := by
    intro e2 he2
    rw [hgroups_eq] at he2
    rcases rec_foldl_next_mem st.emitterHeight st.groups clusters _ e2 he2 with h1 | h1
    · exact absurd h1 (List.not_mem_nil e2)
    · obtain ⟨comp, hcomp, hlen, hkey, _, _⟩ := h1
      refine List.mem_map.2 ⟨comp, ?_, hkey.symm⟩
      simp only [keptClusters, List.mem_filter, decide_eq_true_eq]
      exact ⟨hcomp, hlen⟩
  have hcreated_ge : ∀ x ∈ (reconcileVisualsX st clusters).2.1, st.nextHid ≤ x := by
    rw [hcreated_eq]
    exact rec_foldl_created_ge st.emitterHeight st.groups st.nextHid clusters _
      (fun x hx => absurd hx (List.not_mem_nil x)) (Nat.le_refl _)
  have hdestroyed : (reconcileVisualsX st clusters).2.2 =
      (st.groups.filter (fun e =>
        !(containsKey (reconcileVisualsX st clusters).1.groups e.1) &&
        e.2.sprite.attached)).map (fun e => e.2.sprite.hid) := rfl
  refine ⟨?_, ?_, ?_⟩
  · -- (a) reuse
    intro comp hcomp hlen g hlook
    have hk : keyFor comp ∈ (keptClusters clusters).map keyFor := by
      refine List.mem_map.2 ⟨comp, ?_, rfl⟩
      simp only [keptClusters, List.mem_filter, decide_eq_true_eq]
      exact ⟨hcomp, hlen⟩
    have hmain := rec_foldl_lookup st.emitterHeight st.groups clusters
      { next := [], parts := st.particles.map fun p => { p with merged := false },
        singles := st.singleSprites, createdHids := [], nextHid := st.nextHid }
      (keyFor comp) hkeys rfl hk
    rcases hmain with ⟨g0, hg0, comp2, _, _, _, hres⟩ | ⟨hnone, _⟩
    · rw [hlook] at hg0
      have hg0g : g0 = g := (Option.some.inj hg0).symm
      subst hg0g
      constructor
      · refine ⟨{ g0 with particles := comp2, anchor := pickAnchor st.emitterHeight comp2 }, ?_, rfl⟩
        rw [hgroups_eq]
        exact hres
      constructor
      · -- not destroyed: its key is still bound
        intro hmem
        rw [hdestroyed] at hmem
        obtain ⟨e2, he2, hhid⟩ := List.mem_map.1 hmem
        have he2g : e2 ∈ st.groups := (List.mem_filter.1 he2).1
        have hentry : (keyFor comp, g0) ∈ st.groups := lookupKey_mem hlook
        have heq : e2 = (keyFor comp, g0) :=
          List.inj_on_of_nodup_map hhid_nodup he2g hentry hhid
        have hflag := (List.mem_filter.1 he2).2
        rw [heq] at hflag
        simp only [Bool.and_eq_true, Bool.not_eq_true'] at hflag
        have hcontains : containsKey (reconcileVisualsX st clusters).1.groups (keyFor comp)
            = true := by
          rw [hgroups_eq]
          exact containsKey_of_lookup hres
        rw [hcontains] at hflag
        exact absurd hflag.1 (by simp)
      · -- not created: tracked handles sit below the allocation counter
        intro hmem
        have hge := hcreated_ge _ hmem
        have hlt : g0.sprite.hid < st.nextHid := hhid_bound _ (lookupKey_mem hlook)
        omega
    · rw [hlook] at hnone
      exact absurd hnone (by simp)
  · -- (b) destroy
    intro e he hkout hatt
    have hnc : containsKey (reconcileVisualsX st clusters).1.groups e.1 = false := by
      cases hc : containsKey (reconcileVisualsX st clusters).1.groups e.1 with
      | false => rfl
      | true =>
        obtain ⟨e2, he2, hkey⟩ := containsKey_mem hc
        exact absurd (hkey ▸ hnext_keys e2 he2) hkout
    rw [hdestroyed]
    refine List.mem_map.2 ⟨e, ?_, rfl⟩
    refine List.mem_filter.2 ⟨he, ?_⟩
    rw [hnc, hatt]
    rfl
  · -- (c) create
    intro comp hcomp hlen hnone
    have hk : keyFor comp ∈ (keptClusters clusters).map keyFor := by
      refine List.mem_map.2 ⟨comp, ?_, rfl⟩
      simp only [keptClusters, List.mem_filter, decide_eq_true_eq]
      exact ⟨hcomp, hlen⟩
    have hmain := rec_foldl_lookup st.emitterHeight st.groups clusters
      { next := [], parts := st.particles.map fun p => { p with merged := false },
        singles := st.singleSprites, createdHids := [], nextHid := st.nextHid }
      (keyFor comp) hkeys rfl hk
    rcases hmain with ⟨g0, hg0, _⟩ | ⟨_, g2, hres, hge, hcre⟩
    · rw [hnone] at hg0
      exact absurd hg0 (by simp)
    · refine ⟨g2, by rw [hgroups_eq]; exact hres, by rw [hcreated_eq]; exact hcre, ?_⟩
      intro e he heq
      have hlt : e.2.sprite.hid < st.nextHid := hhid_bound e he
      have hge2 : st.nextHid ≤ g2.sprite.hid := hge
      omega

/-! ### The claims -/

/-- Claim C1: for every reachable state of the system (any sequence of
`update(dt)` calls from a fresh `FireMetaBallSystem` with budget `max`, under
any random stream), after each update the number of visible draw primitives
(visible single sprites of unmerged active particles plus attached group
sprites) never exceeds the budget `max`. -/
theorem fireC1_visible_budget (opts : FireMetaBallOptions) (st : FireMetaBallSystem)
    (h : Reachable opts st) : visibleCount st ≤ opts.max :=
  (reachable_inv opts st h).2.2

/-- Witness for C1: a concrete reachable state (one update from a fresh
system) keeps the visible count within the budget. -/
theorem fireC1_visible_budget_witness :
    visibleCount (update (initSystem optsW) 1 oZero) ≤ optsW.max :=
  fireC1_visible_budget optsW _ (Reachable.step 1 oZero Reachable.init)

/-- Claim C10 (implicit): at the end of every `update(dt)` call from a
reachable state, every particle stored in every tracked group is active, and
neither the dead-anchor reselection branch nor the no-surviving-members
destruction branch of `updateGroupSprites` is executed. -/
theorem fireC10_groups_active (opts : FireMetaBallOptions) (st : FireMetaBallSystem)
    (h : Reachable opts st) (dt : ℚ) (o : Oracle) :
    (updateX st dt o).2 = (false, false) ∧
    (∀ e ∈ (update st dt o).groups, ∀ p ∈ e.2.particles, p.active = true) := by
  obtain ⟨hinv, _, _⟩ := reachable_inv opts st h
  obtain ⟨_, _, _, h4, h5⟩ := update_step st dt o hinv
  exact ⟨h4, h5⟩

/-- Witness for C10 at a concrete reachable state and update. -/
theorem fireC10_groups_active_witness :
    (updateX (initSystem optsW) 1 oZero).2 = (false, false) ∧
    (∀ e ∈ (update (initSystem optsW) 1 oZero).groups,
      ∀ p ∈ e.2.particles, p.active = true) :=
  fireC10_groups_active optsW _ Reachable.init 1 oZero

/-- Claim C3: for every input particle list (with the globally unique ids the
simulator guarantees) and every threshold, `clusterParticles` returns a
partition of the input — every particle appears in exactly one returned
cluster (the flatten of the clusters is a permutation of the input); every
member of a cluster is reachable from every other member through the
admitted-neighbour graph of the cluster; the empty input yields an empty
cluster list; and a single particle yields one singleton cluster. -/
theorem fireC3_cluster_partition (H thr : ℚ) (ps : List FireMetaBallParticle)
    (hn : (ps.map (·.id)).Nodup) :
    (clusterParticles H ps thr).flatten.Perm ps ∧
    (∀ c ∈ clusterParticles H ps thr, ∀ a ∈ c, ∀ b ∈ c,
      Relation.ReflTransGen (clusterRel H thr c) a b) ∧
    clusterParticles H [] thr = [] ∧
    (∀ p, clusterParticles H [p] thr = [[p]]) := by
  obtain ⟨h1, h2, h3⟩ := clusterParticles_spec H thr ps hn
  refine ⟨h1, ?_, rfl, fun p => clusterParticles_singleton H thr p⟩
  intro c hc a ha b hb
  obtain ⟨s, hs, hreach⟩ := h3 c hc
  have hsym := Relation.ReflTransGen.symmetric (clusterRel_symmetric H thr c)
  exact (hsym (hreach a ha)).trans (hreach b hb)

/-- Claim C6 (amended): `clusterParticles` is a pure function (re-running it
on the same frozen list gives the same partition), and every permutation of
the input yields a partition of the same particle set; but the partition
itself is not invariant under permutation of the input order
(see the counterexample). -/
theorem fireC6_amended (H thr : ℚ) (ps qs : List FireMetaBallParticle)
    (hperm : ps.Perm qs) (hn : (ps.map (·.id)).Nodup) :
    ((clusterParticles H ps thr).flatten).Perm ((clusterParticles H qs thr).flatten) := by
  have hn2 : (qs.map (·.id)).Nodup := ((hperm.map _).nodup_iff).1 hn
  exact ((clusterParticles_spec H thr ps hn).1.trans hperm).trans
    ((clusterParticles_spec H thr qs hn2).1.symm)

/-- Claim C7 (amended): for a non-empty particle set the cluster count at any
threshold lies between 1 and the particle count; monotone non-increase in
the multiplier fails (see the counterexample). -/
theorem fireC7_amended (H thr : ℚ) (ps : List FireMetaBallParticle)
    (hne : ps ≠ []) (hn : (ps.map (·.id)).Nodup) :
    1 ≤ (clusterParticles H ps thr).length ∧
    (clusterParticles H ps thr).length ≤ ps.length := by
  obtain ⟨h1, h2, _⟩ := clusterParticles_spec H thr ps hn
  constructor
  · cases hc : clusterParticles H ps thr with
    | nil =>
      rw [hc] at h1
      simp only [List.flatten_nil] at h1
      exact absurd (List.Perm.eq_nil h1.symm).symm (fun he => hne he.symm)
    | cons c rest => simp
  · calc (clusterParticles H ps thr).length
        ≤ (clusterParticles H ps thr).flatten.length := length_le_flatten_length h2
      _ = ps.length := h1.length_eq

/-- Claim C2: for every non-empty active particle set, `clusterToFitBudget`
tries the fixed multiplier list `[1, 1.12, 1.4, 1.8, 2, 2.2]` — strictly
increasing — in order at `threshold = baseMergeDistance * multiplier` and
returns the clustering of the first (smallest) multiplier whose cluster
count fits the budget; if no multiplier fits, it returns the clustering at
the largest multiplier `2.2`. In either case the chosen count is within the
budget or the whole list failed it. -/
theorem fireC2_first_fit (H base : ℚ) (maxS : ℕ) (particles : List FireMetaBallParticle)
    (hne : particles.filter (·.active) ≠ []) :
    List.Sorted (· < ·) multipliers ∧
    ((∃ pre m post, multipliers = pre ++ m :: post ∧
        (∀ m2 ∈ pre,
          maxS < (clusterParticles H (particles.filter (·.active)) (base * m2)).length) ∧
        (clusterParticles H (particles.filter (·.active)) (base * m)).length ≤ maxS ∧
        clusterToFitBudget H maxS base particles =
          clusterParticles H (particles.filter (·.active)) (base * m)) ∨
     ((∀ m2 ∈ multipliers,
          maxS < (clusterParticles H (particles.filter (·.active)) (base * m2)).length) ∧
      clusterToFitBudget H maxS base particles =
        clusterParticles H (particles.filter (·.active)) (base * (11/5)))) := by
  constructor
  · unfold multipliers
    refine List.sorted_cons.2 ⟨?_, List.sorted_cons.2 ⟨?_, List.sorted_cons.2 ⟨?_,
      List.sorted_cons.2 ⟨?_, List.sorted_cons.2 ⟨?_, List.sorted_singleton _⟩⟩⟩⟩⟩ <;>
      (intro b hb) <;> (fin_cases hb) <;> norm_num
  · have hres : clusterToFitBudget H maxS base particles =
        fitLoop H base maxS (particles.filter (·.active)) multipliers [] := by
      unfold clusterToFitBudget
      rw [if_neg ?_]
      intro h
      exact hne (List.length_eq_zero.1 h)
    rw [hres]
    rcases fitLoop_spec H base maxS (particles.filter (·.active)) multipliers [] with
      h1 | ⟨hall, hrest⟩
    · exact Or.inl h1
    · refine Or.inr ⟨hall, ?_⟩
      rcases hrest with ⟨hnil, _⟩ | ⟨mlast, hlast, hres2⟩
      · exact absurd hnil (by unfold multipliers; simp)
      · have : mlast = 11/5 := by
          have he : multipliers.getLast? = some (11/5 : ℚ) := by
            unfold multipliers
            rfl
          rw [he] at hlast
          exact (Option.some.inj hlast).symm
        rw [← this]
        exact hres2

/-- Claim C5 (amended): for every active particle the rendering alpha is
`min (life * 2) 1` — the fade starts in the last half time-unit of life,
independent of `maxLife`; the ratio-based formula of the original claim
fails (see the counterexample). -/
theorem fireC5_alpha_amended (p : FireMetaBallParticle) (h : p.active = true) :
    p.getAlpha = min (p.life * 2) 1 := by
  unfold FireMetaBallParticle.getAlpha
  rw [h]
  simp only [Bool.not_true, Bool.false_eq_true, if_false]
  by_cases hlt : p.life * 2 < 1
  · rw [if_pos hlt, min_eq_left (le_of_lt hlt)]
  · rw [if_neg hlt, min_eq_right (le_of_not_lt hlt)]

/-- The auxiliary lemma for bounding grid-cell indices: rationals at distance
at most 1 have floors at distance at most 1. -/
lemma floor_diff_le_one {a b : ℚ} (h1 : a - b ≤ 1) (h2 : b - a ≤ 1) :
    (⌊a⌋ - ⌊b⌋).natAbs ≤ 1 := by
  have ha : a ≤ b + 1 := by linarith
  have hb : b ≤ a + 1 := by linarith
  have f1 : ⌊a⌋ ≤ ⌊b⌋ + 1 := by
    calc ⌊a⌋ ≤ ⌊b + 1⌋ := Int.floor_le_floor ha
      _ = ⌊b⌋ + 1 := by rw [Int.floor_add_one]
  have f2 : ⌊b⌋ ≤ ⌊a⌋ + 1 := by
    calc ⌊b⌋ ≤ ⌊a + 1⌋ := Int.floor_le_floor hb
      _ = ⌊a⌋ + 1 := by rw [Int.floor_add_one]
  omega

/-- The height scale `scaleAtY` is never negative. -/
lemma scaleAtY_nonneg (H y : ℚ) : 0 ≤ scaleAtY H y := by
  unfold scaleAtY
  have ht : (0 : ℚ) ≤ max 0 (min 1 (y / H)) := le_max_left _ _
  nlinarith

/-- Claim C8 (amended): whenever both endpoints' height scales are at most 1
(so the effective pairwise radius is at most the threshold), a pair passing
the pairwise merge test lies in grid cells differing by at most 1 in each
coordinate, so the 3×3 neighbourhood suffices; with larger height scales the
pair can sit two cells apart and be missed (see the counterexample). -/
theorem fireC8_amended (H thr : ℚ) (hthr : 0 < thr) (p q : FireMetaBallParticle)
    (hpair : pairTestB H thr p q = true)
    (hp : scaleAtY H p.y ≤ 1) (hq : scaleAtY H q.y ≤ 1) :
    ((cellKey thr p.x p.y).1 - (cellKey thr q.x q.y).1).natAbs ≤ 1 ∧
    ((cellKey thr p.x p.y).2 - (cellKey thr q.x q.y).2).natAbs ≤ 1 := by
  unfold pairTestB at hpair
  simp only [decide_eq_true_eq] at hpair
  have hs1 : max (scaleAtY H p.y) (scaleAtY H q.y) ≤ 1 := max_le hp hq
  have hs0 : 0 ≤ max (scaleAtY H p.y) (scaleAtY H q.y) :=
    le_trans (scaleAtY_nonneg H p.y) (le_max_left _ _)
  have hts : thr * max (scaleAtY H p.y) (scaleAtY H q.y) ≤ thr := by
    calc thr * max (scaleAtY H p.y) (scaleAtY H q.y) ≤ thr * 1 :=
          mul_le_mul_of_nonneg_left hs1 hthr.le
      _ = thr := mul_one thr
  have hts0 : 0 ≤ thr * max (scaleAtY H p.y) (scaleAtY H q.y) := mul_nonneg hthr.le hs0
  have hthr2 : (thr * max (scaleAtY H p.y) (scaleAtY H q.y)) *
      (thr * max (scaleAtY H p.y) (scaleAtY H q.y)) ≤ thr * thr :=
    mul_le_mul hts hts hts0 hthr.le
  have hdx2 : (p.x - q.x) * (p.x - q.x) ≤ thr * thr := by
    nlinarith [mul_self_nonneg (p.y - q.y)]
  have hdy2 : (p.y - q.y) * (p.y - q.y) ≤ thr * thr := by
    nlinarith [mul_self_nonneg (p.x - q.x)]
  have hdxu : p.x - q.x ≤ thr := by nlinarith
  have hdxl : q.x - p.x ≤ thr := by nlinarith
  have hdyu : p.y - q.y ≤ thr := by nlinarith
  have hdyl : q.y - p.y ≤ thr := by nlinarith
  constructor
  · refine floor_diff_le_one ?_ ?_
    · rw [div_sub_div_same]
      exact (div_le_one hthr).2 hdxu
    · rw [div_sub_div_same]
      exact (div_le_one hthr).2 hdxl
  · refine floor_diff_le_one ?_ ?_
    · rw [div_sub_div_same]
      exact (div_le_one hthr).2 hdyu
    · rw [div_sub_div_same]
      exact (div_le_one hthr).2 hdyl

section ConcreteEvaluation

attribute [local semireducible] Rat.add Rat.mul Rat.sub Rat.inv Rat.ofScientific

/-- Counterexample to C5 as stated: for the active particle `cxP5` with
`life = 1`, `maxLife = 4`, the code returns alpha `1` (it uses `life * 2`),
whereas `min 1 (2 * life / maxLife) = 1/2`. -/
theorem fireC5_alpha_counterexample :
    cxP5.active = true ∧
    FireMetaBallParticle.getAlpha cxP5 = 1 ∧
    FireMetaBallParticle.getAlpha cxP5 ≠ min 1 (2 * cxP5.life / cxP5.maxLife) := by
  refine ⟨rfl, by decide, by decide⟩

/-- Witness for the amended C5 at a concrete active particle. -/
theorem fireC5_alpha_amended_witness :
    cxBase.active = true ∧ cxBase.getAlpha = min (cxBase.life * 2) 1 :=
  ⟨rfl, fireC5_alpha_amended cxBase rfl⟩

/-- Counterexample to C6 as stated: the same three particles clustered at the
same threshold in two different input orders yield different partitions —
one cluster `{1,2,3}` versus the two clusters `{2,3}` and `{1}` (the
cohesion test depends on the order-dependent running centroid). -/
theorem fireC6_order_counterexample :
    List.Perm [cxC, cxB, cxA] [cxA, cxB, cxC] ∧
    (clusterParticles 100 [cxA, cxB, cxC] 10).map keyFor = [[1, 2, 3]] ∧
    (clusterParticles 100 [cxC, cxB, cxA] 10).map keyFor = [[2, 3], [1]] := by
  refine ⟨by decide, by decide, by decide⟩

/-- Witness for the amended C6: both orders cluster the same particle set. -/
theorem fireC6_amended_witness :
    List.Perm [cxA, cxB, cxC] [cxC, cxB, cxA] ∧
    (([cxA, cxB, cxC].map (·.id)).Nodup) ∧
    ((clusterParticles 100 [cxA, cxB, cxC] 10).flatten).Perm
      ((clusterParticles 100 [cxC, cxB, cxA] 10).flatten) :=
  ⟨by decide, by decide, fireC6_amended 100 10 _ _ (by decide) (by decide)⟩

/-- Counterexample to C7 as stated: for the two-particle set `{cxQ1, cxQ2}`
and the multipliers `1 < 1.12` from the list, the cluster count at
`threshold = 10 * 1.12` (namely 2 — the pair drifts two grid cells apart) is
larger than at `threshold = 10 * 1` (namely 1). -/
theorem fireC7_monotonicity_counterexample :
    (1 : ℚ) ∈ multipliers ∧ (112/100 : ℚ) ∈ multipliers ∧ (1 : ℚ) < 112/100 ∧
    (clusterParticles 100 [cxQ1, cxQ2] (10 * 1)).length = 1 ∧
    (clusterParticles 100 [cxQ1, cxQ2] (10 * (112/100))).length = 2 := by
  refine ⟨by decide, by decide, by decide, by decide, by decide⟩

/-- Witness for the amended C7 at a concrete non-empty set. -/
theorem fireC7_amended_witness :
    ([cxQ1, cxQ2] : List FireMetaBallParticle) ≠ [] ∧
    (([cxQ1, cxQ2].map (·.id)).Nodup) ∧
    1 ≤ (clusterParticles 100 [cxQ1, cxQ2] 10).length ∧
    (clusterParticles 100 [cxQ1, cxQ2] 10).length ≤ 2 :=
  ⟨by decide, by decide, (fireC7_amended 100 10 _ (by decide) (by decide)).1,
    (fireC7_amended 100 10 _ (by decide) (by decide)).2⟩

/-- Counterexample to C8 as stated: the particles `cxR1`, `cxR2` at height 99
(height scale 2.1) pass the pairwise merge test at threshold 10 with a
distance of 20.5, yet their grid cells differ by 2 columns, so the 3×3
candidate search misses the pair and the clusterer leaves them separate. -/
theorem fireC8_grid_counterexample :
    pairTestB 100 10 cxR1 cxR2 = true ∧
    (cellKey 10 cxR2.x cxR2.y).1 - (cellKey 10 cxR1.x cxR1.y).1 = 2 ∧
    (cellKey 10 cxR2.x cxR2.y).2 = (cellKey 10 cxR1.x cxR1.y).2 ∧
    (clusterParticles 100 [cxR1, cxR2] 10).length = 2 := by
  refine ⟨by decide, by decide, by decide, by decide⟩

/-- Witness for the amended C8: two particles low in the emitter (height
scales ≤ 1) passing the pairwise test have neighbouring cells. -/
theorem fireC8_amended_witness :
    (0 : ℚ) < 10 ∧ pairTestB 100 10 cxA cxB = true ∧
    scaleAtY 100 cxA.y ≤ 1 ∧ scaleAtY 100 cxB.y ≤ 1 ∧
    ((cellKey 10 cxA.x cxA.y).1 - (cellKey 10 cxB.x cxB.y).1).natAbs ≤ 1 ∧
    ((cellKey 10 cxA.x cxA.y).2 - (cellKey 10 cxB.x cxB.y).2).natAbs ≤ 1 :=
  ⟨by decide, by decide, by decide, by decide,
    (fireC8_amended 100 10 (by decide) cxA cxB (by decide) (by decide) (by decide)).1,
    (fireC8_amended 100 10 (by decide) cxA cxB (by decide) (by decide) (by decide)).2⟩

/-- Claim C9 (code bug): calling `update` with a negative `dt` is not a
no-op — the spawn timer decreases and every particle's position rewinds and
its life grows (the source performs no `dt` guard). At the concrete state
`stC9` with `dt = -1`: the timer moves from 0 to -1, the particle's life
from 1 to 2 and its `x` from 5 to 4, and no exception is involved (the model
is total). -/
theorem fireC9_negative_dt_mutates :
    stC9.spawnTimer = 0 ∧ (update stC9 (-1) oZero).spawnTimer = -1 ∧
    (stC9.particles.map (·.life)) = [1] ∧
    ((update stC9 (-1) oZero).particles.map (·.life)) = [2] ∧
    (stC9.particles.map (·.x)) = [5] ∧
    ((update stC9 (-1) oZero).particles.map (·.x)) = [4] := by
  refine ⟨by decide, by decide, by decide, by decide, by decide, by decide⟩

/-- Witness for C2 at a concrete one-particle system: the hypothesis holds
and the multiplier list is strictly increasing. -/
theorem fireC2_first_fit_witness :
    ([cxA] : List FireMetaBallParticle).filter (·.active) ≠ [] ∧
    List.Sorted (· < ·) multipliers ∧
    clusterToFitBudget 100 10 5 [cxA] = [[cxA]] :=
  ⟨by decide, (fireC2_first_fit 100 5 10 [cxA] (by decide)).1, by decide⟩

/-- Witness for C3 at a concrete two-particle set. -/
theorem fireC3_cluster_partition_witness :
    (([cxA, cxB].map (·.id)).Nodup) ∧
    ((clusterParticles 100 [cxA, cxB] 10).flatten).Perm [cxA, cxB] :=
  ⟨by decide, (fireC3_cluster_partition 100 10 [cxA, cxB] (by decide)).1⟩

/-- Witness for C4: a concrete reconciliation in which the tracked group for
`{1, 2}` reappears and its handle is reused. -/
theorem fireC4_identity_stability_witness :
    ((keptClusters [[cxA, cxB]]).map keyFor).Nodup ∧
    ((stC4.groups.map (fun e => e.2.sprite.hid)).Nodup) ∧
    (∀ e ∈ stC4.groups, e.2.sprite.hid < stC4.nextHid) ∧
    (∃ g2, lookupKey (reconcileVisualsX stC4 [[cxA, cxB]]).1.groups (keyFor [cxA, cxB]) =
        some g2 ∧ g2.sprite = (mkSprite 5 0 44)) := by
  refine ⟨by decide, by decide, by decide, ?_⟩
  have h := (fireC4_identity_stability stC4 [[cxA, cxB]] (by decide) (by decide)
    (by decide)).1 [cxA, cxB] (List.mem_singleton.2 rfl) (by decide)
    { key := [1, 2], particles := [cxA, cxB], sprite := mkSprite 5 0 44, anchor := cxA }
    (by decide)
  obtain ⟨⟨g2, hg2, hsp⟩, _, _⟩ := h
  exact ⟨g2, hg2, hsp⟩

end ConcreteEvaluation

/-! ### Fuel sufficiency of the DFS loop -/

/-- One admission strictly decreases the number of unvisited particles while
pushing one stack entry; a rejection changes nothing. -/
lemma admitStep_measure (H thr : ℚ) (ps : List FireMetaBallParticle)
    (cur nb : FireMetaBallParticle) (s : DfsState) (hnb : nb ∈ ps) :
    admitStep H thr cur s nb = s ∨
    ((admitStep H thr cur s nb).stack.length = s.stack.length + 1 ∧
     (ps.filter (fun p => !(decide (p.id ∈ (admitStep H thr cur s nb).visited)))).length + 1 ≤
       (ps.filter (fun p => !(decide (p.id ∈ s.visited)))).length) := by
  rcases admitStep_cases H thr cur nb s with h | ⟨hnv, _, hv, _, hst⟩
  · exact Or.inl h
  right
  constructor
  · rw [hst]; rfl
  rw [hv]
  have hsplit := length_filter_split (fun p => decide (p.id = nb.id))
    (ps.filter (fun p => !(decide (p.id ∈ s.visited))))
  have he1 : ((ps.filter (fun p => !(decide (p.id ∈ s.visited)))).filter
      (fun p => !(decide (p.id = nb.id)))).length =
      (ps.filter (fun p => !(decide (p.id ∈ nb.id :: s.visited)))).length := by
    rw [List.filter_filter]
    refine congrArg List.length (List.filter_congr ?_)
    intro p _
    by_cases h1 : p.id ∈ s.visited <;> by_cases h2 : p.id = nb.id <;>
      simp [h1, h2, List.mem_cons]
  have hnbmem : nb ∈ (ps.filter (fun p => !(decide (p.id ∈ s.visited)))).filter
      (fun p => decide (p.id = nb.id)) := by
    refine List.mem_filter.2 ⟨List.mem_filter.2 ⟨hnb, ?_⟩, by simp⟩
    simp [hnv]
  have hone : 1 ≤ ((ps.filter (fun p => !(decide (p.id ∈ s.visited)))).filter
      (fun p => decide (p.id = nb.id))).length :=
    List.length_pos.2 (List.ne_nil_of_mem hnbmem)
  omega

/-- Folding the admission step cannot increase stack size plus unvisited
count. -/
lemma foldl_admit_measure (H thr : ℚ) (ps : List FireMetaBallParticle)
    (cur : FireMetaBallParticle) (cands : List FireMetaBallParticle) (s : DfsState)
    (hcands : ∀ p ∈ cands, p ∈ ps) :
    (cands.foldl (admitStep H thr cur) s).stack.length +
      (ps.filter (fun p =>
        !(decide (p.id ∈ (cands.foldl (admitStep H thr cur) s).visited)))).length ≤
    s.stack.length + (ps.filter (fun p => !(decide (p.id ∈ s.visited)))).length := by
  refine List.foldlRecOn cands (admitStep H thr cur) s
    (motive := fun st => st.stack.length +
      (ps.filter (fun p => !(decide (p.id ∈ st.visited)))).length ≤
      s.stack.length + (ps.filter (fun p => !(decide (p.id ∈ s.visited)))).length)
    (Nat.le_refl _) ?_
  intro st hst nb hnb
  rcases admitStep_measure H thr ps cur nb st (hcands nb hnb) with h | ⟨h1, h2⟩
  · rw [h]; exact hst
  · omega

/-- Fuel sufficiency: as soon as the fuel covers the stack size plus the
number of unvisited particles, `dfsLoop` drains its stack — in particular the
fuel `particles.length + 1` used by `clusterParticles` (with an initial stack
of one seed) always suffices, so the out-of-fuel branch is dead code. -/
lemma dfsLoop_stack_empty (H thr : ℚ) (b : Buckets) (ps : List FireMetaBallParticle)
    (hb : ∀ k, ∀ q ∈ bucketsGet b k, q ∈ ps) :
    ∀ (fuel : ℕ) (s : DfsState),
      s.stack.length + (ps.filter (fun p => !(decide (p.id ∈ s.visited)))).length ≤ fuel →
      (dfsLoop H thr b fuel s).stack = [] := by
  intro fuel
  induction fuel with
  | zero =>
    intro s h
    have : s.stack.length = 0 := by omega
    simpa [dfsLoop] using List.length_eq_zero.1 this
  | succ n ih =>
    intro s h
    cases hs : s.stack with
    | nil => simp [dfsLoop, hs]
    | cons cur rest =>
      simp only [dfsLoop, hs]
      refine ih _ ?_
      have hcands : ∀ p ∈ candidates thr b cur.x cur.y, p ∈ ps := by
        intro p hp
        obtain ⟨k, hk⟩ := mem_candidates hp
        exact hb k p hk
      have hm := foldl_admit_measure H thr ps cur (candidates thr b cur.x cur.y)
        { s with stack := rest } hcands
      have hlen : rest.length + 1 = s.stack.length := by rw [hs]; rfl
      simp only at hm
      omega
